import Mathlib

/-!
# GNU Zile command layer: function registry, repetition protocol, minibuffer loop

A shallow embedding of `src/lisp.c` and `src/minibuf.c`.

* C strings are Lean strings, compared with an explicit `strcmp`.
* The editor and Lua state that the C code reaches through external functions
  is an abstract type `σ`; every external function is a field of a record of
  collaborators (`UndoExt`, `LispExt`, `MinibufExt`) acting on `σ`.
* A `World` pairs that state with the trace of the external calls made so far,
  so that "is invoked", "emits" and "never runs" are statements about a list.
* For the extended-command path the state is an `Editor`: the completion
  objects and the macro store are explicit, the rest stays abstract
  (`EditorExt`).
* `int` values are integers; the one place where `int` arithmetic can leave the
  32-bit range (the negation in `execute_with_uniarg`) wraps explicitly.
-/

namespace Zile

/-! ## C strings and machine integers -/

/-- The C library `strcmp` on the characters of two strings: zero exactly when
they are equal, otherwise the difference at the first position that differs. -/
def strcmpChars : List Char → List Char → Int
  | [], [] => 0
  | [], _ :: _ => -1
  | _ :: _, [] => 1
  | a :: as, b :: bs =>
    if a = b then strcmpChars as bs else (a.toNat : Int) - (b.toNat : Int)

/-- The `strcmp` of `<string.h>`. -/
def strcmp (a b : String) : Int := strcmpChars a.data b.data

/-- Smallest value of a 32-bit `int`. -/
def INT_MIN : Int := -2147483648

/-- Largest value of a 32-bit `int`. -/
def INT_MAX : Int := 2147483647

/-- Reduction of an integer to the 32-bit two's-complement `int` it is stored as. -/
def wrap_int (x : Int) : Int := (x + 2147483648) % 4294967296 - 2147483648

/-! ## Lisp values, function pointers, effects -/

/-- A Lisp value `le` is a Lua registry reference: one of the two distinguished
references made by `init_lisp` (`leNIL`, `leT`), or any other reference. -/
inductive le
  | NIL
  | T
  | ref (r : Int)
  deriving DecidableEq, Repr

/-- The global `leNIL` of `lisp.c`. -/
def leNIL : le := le.NIL

/-- The global `leT` of `lisp.c`. -/
def leT : le := le.T

/-- Lua's `LUA_REFNIL`, the reference `-1`. -/
def LUA_REFNIL : Int := -1

/-- Modelled from the spec: the macro `bool_to_lisp` of `main.h`, which is not
among the sources; a true `int` is success (`leT`), zero is failure (`leNIL`). -/
def bool_to_lisp (b : Int) : le := if b ≠ 0 then leT else leNIL

/-- A built-in `Function` pointer, identified by its address. -/
structure Function where
  addr : Nat
  deriving DecidableEq, Repr

/-- A `Macro *` handle of `macro.c`. -/
structure Macro where
  ptr : Nat
  deriving DecidableEq, Repr

/-- Modelled from the spec: the two undo boundary markers passed to `undo_save`;
their enumeration lives in `main.h`, which is not among the sources. -/
inductive UndoType
  | UNDO_START_SEQUENCE
  | UNDO_END_SEQUENCE
  deriving DecidableEq, Repr

/-- Which of the two function pointers given to `execute_with_uniarg` is called. -/
inductive Callee
  | forward
  | backward
  deriving DecidableEq, Repr

/-- One external call, as recorded in the trace of a `World`. -/
inductive Effect
  | undo_save (type : UndoType) (pt : Int) (arg1 arg2 : Nat)
  | call (c : Callee)
  | func (f : Function) (uniarg : Int) (arglist : le)
  | call_macro (mp : Macro)
  | term_minibuf_read (prompt value : String) (pos : Int) (cp hp : Int)
      (result : Option String)
  | keyboard_quit
  | minibuf_vwrite (fmt : String) (args : List String)
  | ding
  | completion_try (cp : Int) (search : String)
  | popup_completion (cp : Int)
  | minibuf_test_in_completions (ms : String) (cp : Int)
  | add_history_element (hp : Int) (s : String)
  | term_minibuf_write (s : String)
  | waitkey
  deriving DecidableEq, Repr

/-- The editor state together with the external calls made so far. -/
structure World (σ : Type) where
  st : σ
  trace : List Effect

/-! ## The function table (`lisp.c`, lines 39-90) -/

/-- The `struct fentry` of `lisp.c`. -/
structure fentry where
  name : String
  func : Function
  interactive : Bool
  doc : String
  deriving DecidableEq, Repr

/-- The `get_fentry` of `lisp.c`: the first entry of the table whose name
compares equal to `name`. The table itself is generated from `tbl_funcs.h`,
which is not among the sources, and is a parameter. -/
def get_fentry : List fentry → String → Option fentry
  | [], _ => none
  | e :: rest, name => if strcmp name e.name = 0 then some e else get_fentry rest name

/-- The `get_function` of `lisp.c`. -/
def get_function (fentry_table : List fentry) (name : String) : Option Function :=
  match get_fentry fentry_table name with
  | some f => some f.func
  | none => none

/-- The `get_function_doc` of `lisp.c`. -/
def get_function_doc (fentry_table : List fentry) (name : String) : Option String :=
  match get_fentry fentry_table name with
  | some f => some f.doc
  | none => none

/-- The `get_function_name` of `lisp.c`: the name of the first entry of the
table whose function pointer is `p`. -/
def get_function_name : List fentry → Function → Option String
  | [], _ => none
  | e :: rest, p => if e.func = p then some e.name else get_function_name rest p

/-! ## Repetition under a numeric argument (`lisp.c`, lines 92-111) -/

/-- A C function `int f (void)` acting on the editor state. -/
abbrev Action (σ : Type) := σ → Int × σ

/-- The undo log as `execute_with_uniarg` sees it. -/
structure UndoExt (σ : Type) where
  get_buffer_pt : σ → Int
  undo_save : UndoType → Int → Nat → Nat → σ → σ

/-- A call of `undo_save (type, get_buffer_pt (cur_bp), 0, 0)`. -/
def undo_save_here {σ : Type} (U : UndoExt σ) (type : UndoType) (w : World σ) : World σ :=
  let pt := U.get_buffer_pt w.st
  { st := U.undo_save type pt 0 0 w.st,
    trace := w.trace ++ [Effect.undo_save type pt 0 0] }

/-- A call through the function pointer `func`. -/
def call_func {σ : Type} (c : Callee) (func : Action σ) (w : World σ) : Int × World σ :=
  let r := func w.st
  (r.1, { st := r.2, trace := w.trace ++ [Effect.call c] })

/-- The loop `for (uni = 0; ret && uni < uniarg; ++uni) ret = func ();`, entered
with the current values of `uni` and `ret`. -/
def uniarg_loop {σ : Type} (c : Callee) (func : Action σ) (uniarg : Int)
    (uni : Int) (ret : Int) (w : World σ) : Int × World σ :=
  if ret ≠ 0 ∧ uni < uniarg then
    uniarg_loop c func uniarg (uni + 1) (call_func c func w).1 (call_func c func w).2
  else (ret, w)
termination_by (uniarg - uni).toNat
decreasing_by omega

/-- The function pointer and the count that the loop of `execute_with_uniarg`
uses: `backward` and `-uniarg` when `backward` is not `NULL` and `uniarg < 0`,
otherwise `forward` and `uniarg`. -/
def choose_func {σ : Type} (uniarg : Int) (forward : Action σ)
    (backward : Option (Action σ)) : Callee × Action σ × Int :=
  match backward with
  | some b =>
    if uniarg < 0 then (Callee.backward, b, wrap_int (-uniarg))
    else (Callee.forward, forward, uniarg)
  | none => (Callee.forward, forward, uniarg)

/-- The `execute_with_uniarg` of `lisp.c`. -/
def execute_with_uniarg {σ : Type} (U : UndoExt σ) (undo : Bool) (uniarg : Int)
    (forward : Action σ) (backward : Option (Action σ)) (w : World σ) : le × World σ :=
  let sel := choose_func uniarg forward backward
  let w1 := if undo then undo_save_here U UndoType.UNDO_START_SEQUENCE w else w
  let r := uniarg_loop sel.1 sel.2.1 sel.2.2 0 1 w1
  let w2 := if undo then undo_save_here U UndoType.UNDO_END_SEQUENCE r.2 else r.2
  (bool_to_lisp r.1, w2)

/-- The editor state after `i` consecutive calls of `func`. -/
def after_calls {σ : Type} (func : Action σ) : Nat → σ → σ
  | 0, s => s
  | i + 1, s => after_calls func i (func s).2

/-! ## Dispatch by name (`lisp.c`, lines 113-131) -/

/-- What `execute_function` reaches outside `lisp.c`: the code behind each
built-in function pointer, and the macro store of `macro.c`. -/
structure LispExt (σ : Type) where
  apply : Function → Int → le → σ → le × σ
  get_macro : String → σ → Option Macro
  call_macro : Macro → σ → σ

/-- The `execute_function` of `lisp.c`. -/
def execute_function {σ : Type} (X : LispExt σ) (fentry_table : List fentry)
    (name : String) (uniarg : Int) (w : World σ) : le × World σ :=
  match get_function fentry_table name with
  | some func =>
    let r := X.apply func uniarg (le.ref LUA_REFNIL) w.st
    (r.1, { st := r.2, trace := w.trace ++ [Effect.func func uniarg (le.ref LUA_REFNIL)] })
  | none =>
    match X.get_macro name w.st with
    | some mp =>
      (leT, { st := X.call_macro mp w.st, trace := w.trace ++ [Effect.call_macro mp] })
    | none => (leNIL, w)

/-- The lookup `resolve(name)` as section 4.1 of the specification words it: the
action of the entry whose name is exactly `name`, or not-found. -/
def resolve_spec (fentry_table : List fentry) (name : String) : Option Function :=
  (fentry_table.find? (fun e => decide (e.name = name))).map (fun e => e.func)

/-- The dispatch `execute_named(name, count)` as section 4.5 of the specification
words it: a built-in found by `resolve` is invoked with the count; otherwise a
macro of that name is played and the result is success; otherwise nothing is
executed and the result is failure. -/
def execute_named_spec {σ : Type} (X : LispExt σ) (fentry_table : List fentry)
    (name : String) (count : Int) (w : World σ) : le × World σ :=
  match resolve_spec fentry_table name with
  | some action =>
    ((X.apply action count (le.ref LUA_REFNIL) w.st).1,
     { st := (X.apply action count (le.ref LUA_REFNIL) w.st).2,
       trace := w.trace ++ [Effect.func action count (le.ref LUA_REFNIL)] })
  | none =>
    match X.get_macro name w.st with
    | some m => (leT, { st := X.call_macro m w.st, trace := w.trace ++ [Effect.call_macro m] })
    | none => (leNIL, w)

/-! ## The minibuffer read loop (`minibuf.c`, lines 55-90 and 228-311) -/

/-- Modelled from the spec: the outcome "no match" of `completion_try`; the
enumeration of the outcomes lives in `main.h`, which is not among the sources. -/
def COMPLETION_NOTMATCHED : Int := 0

/-- Modelled from the spec: the outcome "unique match" of `completion_try`. -/
def COMPLETION_MATCHED : Int := 1

/-- Modelled from the spec: the outcome "ambiguous match" of `completion_try`. -/
def COMPLETION_NONUNIQUE : Int := 3

/-- What the minibuffer code reaches outside `minibuf.c`: the change each
external call makes to the editor and Lua state, and the values that the Lua
functions `completion_try`, `get_completion_match` and
`minibuf_test_in_completions` hand back. -/
structure MinibufExt (σ : Type) where
  step : Effect → σ → σ
  completion_try : Int → String → σ → Int
  get_completion_match : Int → σ → String
  minibuf_test_in_completions : String → Int → σ → Bool

/-- One external call: it is recorded and changes the state. -/
def extern_call {σ : Type} (M : MinibufExt σ) (e : Effect) (w : World σ) : World σ :=
  { st := M.step e w.st, trace := w.trace ++ [e] }

/-- The `minibuf_vwrite` of `minibuf.c`: format, store in `minibuf_contents`,
refresh. -/
def minibuf_vwrite {σ : Type} (M : MinibufExt σ) (fmt : String) (args : List String)
    (w : World σ) : World σ :=
  extern_call M (Effect.minibuf_vwrite fmt args) w

/-- The `minibuf_error` of `minibuf.c`: write the message, then `ding ()`. -/
def minibuf_error {σ : Type} (M : MinibufExt σ) (fmt : String) (args : List String)
    (w : World σ) : World σ :=
  extern_call M Effect.ding (minibuf_vwrite M fmt args w)

/-- The `minibuf_clear` of `minibuf.c`. -/
def minibuf_clear {σ : Type} (M : MinibufExt σ) (w : World σ) : World σ :=
  extern_call M (Effect.term_minibuf_write "") w

/-- Where a call of `minibuf_vread_completion` stands once the user's
submissions so far are consumed: it has returned `ms` (`none` is `NULL`) with
`input` left unread, or it is inside `term_minibuf_read`, which has not
returned yet. -/
inductive ReadResult (σ : Type)
  | returned (ms : Option String) (input : List (Option String)) (w : World σ)
  | reading (w : World σ)

/-- How one pass through the body of the `for (;;)` loop of
`minibuf_vread_completion` ends: at a `break`, with the value of `ms` that the
function then returns (`none` is `NULL`), or at the end of the body, from
where the loop starts over. -/
inductive LoopExit (σ : Type)
  | break_with (ms : Option String) (w : World σ)
  | again (w : World σ)

/-- The body of the `for (;;)` loop of `minibuf_vread_completion`, for a call
of `term_minibuf_read` that returns `r`: `none` for a cancelled read (`NULL`),
`some ms` for a submitted text. -/
def minibuf_vread_completion_body {σ : Type} (M : MinibufExt σ) (fmt value : String)
    (cp hp : Int) (empty_err invalid_err : String) (r : Option String) (w : World σ) :
    LoopExit σ :=
  let w1 := extern_call M (Effect.term_minibuf_read fmt value (-1) cp hp r) w
  match r with
  | none => LoopExit.break_with none (extern_call M Effect.keyboard_quit w1)
  | some ms =>
    if ms = "" then
      LoopExit.break_with none (minibuf_error M empty_err [] w1)
    else
      let comp := M.completion_try cp ms w1.st
      let w2 := extern_call M (Effect.completion_try cp ms) w1
      let ms1 := if comp = COMPLETION_MATCHED then M.get_completion_match cp w2.st else ms
      let w3 :=
        if comp = COMPLETION_MATCHED then w2
        else if comp = COMPLETION_NONUNIQUE then extern_call M (Effect.popup_completion cp) w2
        else w2
      let b := M.minibuf_test_in_completions ms1 cp w3.st
      let w4 := extern_call M (Effect.minibuf_test_in_completions ms1 cp) w3
      if b then
        let w5 := if hp ≠ LUA_REFNIL then extern_call M (Effect.add_history_element hp ms1) w4
                  else w4
        LoopExit.break_with (some ms1) (minibuf_clear M w5)
      else
        LoopExit.again (extern_call M Effect.waitkey (minibuf_error M invalid_err [ms1] w4))

/-- The `minibuf_vread_completion` of `minibuf.c`. The list holds what the
successive calls of `term_minibuf_read` return; when it is used up the function
is waiting inside `term_minibuf_read`. -/
def minibuf_vread_completion {σ : Type} (M : MinibufExt σ) (fmt value : String)
    (cp hp : Int) (empty_err invalid_err : String) :
    List (Option String) → World σ → ReadResult σ
  | [], w => ReadResult.reading w
  | r :: input, w =>
    match minibuf_vread_completion_body M fmt value cp hp empty_err invalid_err r w with
    | LoopExit.break_with ms w' => ReadResult.returned ms input w'
    | LoopExit.again w' =>
      minibuf_vread_completion M fmt value cp hp empty_err invalid_err input w'

/-- A minibuffer on a trivial state, for concrete runs: completion never
matches, and the only acceptable text is `find-file`. -/
def sample_minibuf : MinibufExt Unit :=
  { step := fun _ s => s,
    completion_try := fun _ _ _ => COMPLETION_NOTMATCHED,
    get_completion_match := fun _ _ => "",
    minibuf_test_in_completions := fun ms _ _ => decide (ms = "find-file") }

/-- The block `Complete partial words if possible` of the loop body of
`minibuf_vread_completion`, on its own: for the submitted text `ms` and the
world `w1` left by the read, the text that goes on to the test and the world in
which the test is made. -/
def completion_step {σ : Type} (M : MinibufExt σ) (cp : Int) (ms : String) (w1 : World σ) :
    String × World σ :=
  let comp := M.completion_try cp ms w1.st
  let w2 := extern_call M (Effect.completion_try cp ms) w1
  (if comp = COMPLETION_MATCHED then M.get_completion_match cp w2.st else ms,
   if comp = COMPLETION_MATCHED then w2
   else if comp = COMPLETION_NONUNIQUE then extern_call M (Effect.popup_completion cp) w2
   else w2)

/-- The world in which `minibuf_vread_completion` stands. -/
def ReadResult.world {σ : Type} : ReadResult σ → World σ
  | ReadResult.returned _ _ w => w
  | ReadResult.reading w => w

/-- The world at the exit of the loop body. -/
def LoopExit.world {σ : Type} : LoopExit σ → World σ
  | LoopExit.break_with _ w => w
  | LoopExit.again w => w

/-- Whether an effect is a call of `add_history_element`. -/
def is_add_history : Effect → Bool
  | Effect.add_history_element _ _ => true
  | _ => false

/-- Whether an effect is the execution of a command: a call of a built-in
function or the playback of a macro. -/
def is_dispatch : Effect → Bool
  | Effect.func _ _ _ => true
  | Effect.call_macro _ => true
  | _ => false

/-- Modelled from the spec: the longest common prefix of two texts, used by
`try_complete` of section 4.2. -/
def common_prefix : List Char → List Char → List Char
  | a :: as, b :: bs => if a = b then a :: common_prefix as bs else []
  | _, _ => []

/-- Modelled from the spec: `try_complete` of section 4.2, the Lua function
`completion_try`, which is not among the sources. It gives the outcome and the
match text: no candidate has the typed text as a prefix (`NOTMATCHED`, text
unchanged); exactly one has (`MATCHED`, that candidate); several have, and
their longest common prefix strictly extends the typed text (`MATCHED`, that
prefix) or does not (`NONUNIQUE`, text unchanged). -/
def try_complete (candidates : List String) (typed : String) : Int × String :=
  match (candidates.filter (fun c => typed.data.isPrefixOf c.data)).dedup with
  | [] => (COMPLETION_NOTMATCHED, typed)
  | [c] => (COMPLETION_MATCHED, c)
  | c :: cs =>
    let p := cs.foldl (fun acc d => common_prefix acc d.data) c.data
    if typed.data.length < p.length then (COMPLETION_MATCHED, String.mk p)
    else (COMPLETION_NONUNIQUE, typed)

/-- Modelled from the spec: the Completion Engine of section 4.2 over a fixed
candidate set, as the collaborators of the minibuffer loop. The state is the
match text that `completion_try` leaves in the completion object; the
acceptance test is exact membership in the candidate set. -/
def spec_minibuf (candidates : List String) : MinibufExt String :=
  { step := fun e st =>
      match e with
      | Effect.completion_try _ search => (try_complete candidates search).2
      | _ => st,
    completion_try := fun _ search _ => (try_complete candidates search).1,
    get_completion_match := fun _ st => st,
    minibuf_test_in_completions := fun ms _ _ => decide (ms ∈ candidates) }

/-! ## Reading a function name and executing it (`lisp.c`, lines 133-187) -/

/-- Modelled from the spec: a Completion Set of section 3, the object behind a
completion reference: its candidates, the match text that `completion_try`
leaves, and the filename flag given to `completion_new`. -/
structure Completion where
  completions : List String
  match_text : String
  filename : Bool

/-- Modelled from the spec: the editor state as the extended-command path sees
it outside `lisp.c` and `minibuf.c`: the completion objects by reference, the
next free reference, the macro store of `macro.c` (names and macros, section 6),
and the rest of the state, which stays abstract. -/
structure Editor (τ : Type) where
  cps : Int → Completion
  next_ref : Int
  macros : List (String × Macro)
  rest : τ

/-- What stays a parameter of the editor state: the change each external call
makes to the rest of the state, the completion engine, the code behind each
built-in function pointer, and macro playback. -/
structure EditorExt (τ : Type) where
  step : Effect → τ → τ
  try_complete : List String → String → Int × String
  apply : Function → Int → le → Editor τ → le × Editor τ
  call_macro : Macro → Editor τ → Editor τ

/-- Modelled from the spec: the collaborators of the minibuffer loop on an
`Editor`: `completion_try` runs the completion engine on the candidates of the
object `cp` and leaves the match text in it, `get_completion_match` reads that
text, and `minibuf_test_in_completions` is exact membership among the
candidates of `cp` (section 4.2). -/
def editor_minibuf {τ : Type} (E : EditorExt τ) : MinibufExt (Editor τ) :=
  { step := fun e st =>
      match e with
      | Effect.completion_try cp search =>
        { st with
          cps := Function.update st.cps cp
            { st.cps cp with
              match_text := (E.try_complete (st.cps cp).completions search).2 },
          rest := E.step e st.rest }
      | _ => { st with rest := E.step e st.rest },
    completion_try := fun cp search st =>
      (E.try_complete (st.cps cp).completions search).1,
    get_completion_match := fun cp st => (st.cps cp).match_text,
    minibuf_test_in_completions := fun ms cp st => decide (ms ∈ (st.cps cp).completions) }

/-- Modelled from the spec: the macro store as `execute_function` reaches it:
`get_macro` finds the macro stored under a name (`macro_lookup` of section 6). -/
def editor_lisp {τ : Type} (E : EditorExt τ) : LispExt (Editor τ) :=
  { apply := E.apply,
    get_macro := fun name st =>
      (st.macros.find? (fun p => decide (p.1 = name))).map (fun p => p.2),
    call_macro := E.call_macro }

/-- Modelled from the spec: `completion_new (filename)`, a fresh completion
object with no candidates, under the next free reference. -/
def completion_new {τ : Type} (filename : Bool) (w : World (Editor τ)) :
    Int × World (Editor τ) :=
  (w.st.next_ref,
   { w with
     st := { w.st with
       cps := Function.update w.st.cps w.st.next_ref ⟨[], "", filename⟩,
       next_ref := w.st.next_ref + 1 } })

/-- The `gl_sortedlist_add` of gnulib with the comparison `completion_strcmp`
(taken to be `strcmp`): the element is put before the first element that does
not precede it, and an element already present is kept. -/
def gl_sortedlist_add : List String → String → List String
  | [], s => [s]
  | x :: xs, s => if strcmp s x ≤ 0 then s :: x :: xs else x :: gl_sortedlist_add xs s

/-- A call `gl_sortedlist_add (get_completion_completions (cp), completion_strcmp,
xstrdup (name))`. -/
def completion_add {τ : Type} (cp : Int) (name : String) (w : World (Editor τ)) :
    World (Editor τ) :=
  { w with
    st := { w.st with
      cps := Function.update w.st.cps cp
        { w.st.cps cp with
          completions := gl_sortedlist_add (w.st.cps cp).completions name } } }

/-- Modelled from the spec: the `add_macros_to_list` of `macro.c`, which is not
among the sources: the name of every macro of the store is added to the list
(`macro_names` of section 6, folded into the candidates as section 4.1 says). -/
def add_macros_to_list {τ : Type} (cp : Int) (w : World (Editor τ)) : World (Editor τ) :=
  w.st.macros.foldl (fun w1 p => completion_add cp p.1 w1) w

/-- Modelled from the spec: `free_completion (cp)`, the completion object is
destroyed when the call that created it returns (section 3). -/
def free_completion {τ : Type} (cp : Int) (w : World (Editor τ)) : World (Editor τ) :=
  { w with st := { w.st with cps := Function.update w.st.cps cp ⟨[], "", false⟩ } }

/-- The first part of `minibuf_read_function_name` of `lisp.c`: a new completion
object, the name of every entry of the table marked interactive added to it in
table order, then the macro names. It gives the reference of the object and
the world in which the read is made. -/
def function_name_completion {τ : Type} (fentry_table : List fentry)
    (w : World (Editor τ)) : Int × World (Editor τ) :=
  let r := completion_new false w
  (r.1,
   add_macros_to_list r.1
     (fentry_table.foldl
       (fun w1 e => if e.interactive then completion_add r.1 e.name w1 else w1) r.2))

/-- The `minibuf_read_function_name` of `lisp.c`. Its call of
`minibuf_vread_completion` is written for an older signature, which takes the
acceptance test as an argument and is given `minibuf_test_in_completions`; the
function of `minibuf.c` has that test built in, so the call is the one with the
remaining arguments: the prompt, the initial value `""`, the completion, the
history `functions_history` and the two messages. -/
def minibuf_read_function_name {τ : Type} (E : EditorExt τ) (fentry_table : List fentry)
    (functions_history : Int) (fmt : String) (input : List (Option String))
    (w : World (Editor τ)) : ReadResult (Editor τ) :=
  let r := function_name_completion fentry_table w
  match minibuf_vread_completion (editor_minibuf E) fmt "" r.1 functions_history
      "No function name given" "Undefined function name `%s'" input r.2 with
  | ReadResult.returned ms rest w1 => ReadResult.returned ms rest (free_completion r.1 w1)
  | ReadResult.reading w1 => ReadResult.reading w1

/-- Where a call of a command that reads from the minibuffer stands: it has
returned the Lisp value `ok`, or it is waiting inside `term_minibuf_read`. -/
inductive CommandResult (σ : Type)
  | returned (ok : le) (input : List (Option String)) (w : World σ)
  | reading (w : World σ)

/-- The world in which a command stands. -/
def CommandResult.world {σ : Type} : CommandResult σ → World σ
  | CommandResult.returned _ _ w => w
  | CommandResult.reading w => w

/-- The prompt that `execute-extended-command` builds in `msg`: `C-u ` or the
count when a numeric argument was given, then `M-x `. -/
def extended_command_prompt (flag_set_uniarg flag_uniarg_empty : Bool) (uniarg : Int) :
    String :=
  (if flag_set_uniarg then
    (if flag_uniarg_empty then "C-u " else toString uniarg ++ " ")
  else "") ++ "M-x "

/-- Whether two worlds hold the same macro store and, under every reference,
the same completion candidates. -/
def same_store {τ : Type} (w w1 : World (Editor τ)) : Prop :=
  w1.st.macros = w.st.macros ∧
  ∀ c, (w1.st.cps c).completions = (w.st.cps c).completions

/-- The command `execute-extended-command` of `lisp.c`. The macros `DEFUN` and
`END_DEFUN` of `main.h` are not among the sources; the body runs with
`ok = leT` and the value of `ok` is returned at the end. The two tests of
`lastflag` against `FLAG_SET_UNIARG` and `FLAG_UNIARG_EMPTY` are the two
flags given here; `return false` returns the C constant `false`, the value 0
of the integer type `le`. -/
def execute_extended_command {τ : Type} (E : EditorExt τ) (fentry_table : List fentry)
    (functions_history : Int) (flag_set_uniarg flag_uniarg_empty : Bool) (uniarg : Int)
    (input : List (Option String)) (w : World (Editor τ)) : CommandResult (Editor τ) :=
  let msg := extended_command_prompt flag_set_uniarg flag_uniarg_empty uniarg
  match minibuf_read_function_name E fentry_table functions_history msg input w with
  | ReadResult.reading w1 => CommandResult.reading w1
  | ReadResult.returned none rest w1 => CommandResult.returned (le.ref 0) rest w1
  | ReadResult.returned (some name) rest w1 =>
    CommandResult.returned
      (execute_function (editor_lisp E) fentry_table name uniarg w1).1 rest
      (execute_function (editor_lisp E) fentry_table name uniarg w1).2

/-- A table of three built-ins for concrete runs; `setq` is not interactive. -/
def sample_table : List fentry :=
  [⟨"forward-char", ⟨7⟩, true, "Move point right."⟩,
   ⟨"find-file", ⟨8⟩, true, "Edit a file."⟩,
   ⟨"setq", ⟨9⟩, false, "Set each sym to the value of its val."⟩]

/-- An editor on a trivial rest of the state, for concrete runs: the completion
engine is `try_complete`, a built-in returns its count as a reference and
leaves the state alone, and so does macro playback. -/
def sample_editor : EditorExt Unit :=
  { step := fun _ s => s,
    try_complete := try_complete,
    apply := fun _ n _ st => (le.ref n, st),
    call_macro := fun _ st => st }

/-- A world with the given macro store, no completion object and no effect
yet. -/
def sample_world (macros : List (String × Macro)) : World (Editor Unit) :=
  { st := { cps := fun _ => ⟨[], "", false⟩, next_ref := 1, macros := macros, rest := () },
    trace := [] }

/-! ## Reading a number (`minibuf.c`, lines 92-129) -/

/-- What `minibuf_read_number` takes from the C library of the platform: the
limits `ULONG_MAX` and `SIZE_MAX`, and the conversion `strtoul (ms, NULL, 10)`. -/
structure CLib where
  ULONG_MAX : Nat
  SIZE_MAX : Nat
  strtoul : String → Nat

/-- The `strlen` of `<string.h>`. -/
def strlen (s : String) : Nat := s.length

/-- The `minibuf_write` of `minibuf.c`. -/
def minibuf_write {σ : Type} (M : MinibufExt σ) (fmt : String) (args : List String)
    (w : World σ) : World σ :=
  minibuf_vwrite M fmt args w

/-- The `minibuf_read` of `minibuf.c`, for a call of `term_minibuf_read` that
returns `r`; a `NULL` initial value is read as the empty string. -/
def minibuf_read {σ : Type} (M : MinibufExt σ) (fmt : String) (value : Option String)
    (r : Option String) (w : World σ) : World σ :=
  extern_call M
    (Effect.term_minibuf_read fmt (value.getD "") (-1) LUA_REFNIL LUA_REFNIL r) w

/-- Where a call of `minibuf_read_number` stands once the user's submissions so
far are consumed: it has returned `n` with `input` left unread, or it is waiting
inside `term_minibuf_read`. -/
inductive NumberResult (σ : Type)
  | returned (n : Nat) (input : List (Option String)) (w : World σ)
  | reading (w : World σ)

/-- The world in which `minibuf_read_number` stands. -/
def NumberResult.world {σ : Type} : NumberResult σ → World σ
  | NumberResult.returned _ _ w => w
  | NumberResult.reading w => w

/-- The `minibuf_read_number` of `minibuf.c`. The list holds what the
successive calls of `minibuf_read` return: `none` for a cancelled read
(`NULL`), `some ms` for a submitted text. -/
def minibuf_read_number {σ : Type} (M : MinibufExt σ) (C : CLib) (fmt : String) :
    List (Option String) → World σ → NumberResult σ
  | [], w => NumberResult.reading w
  | r :: input, w =>
    let w1 := minibuf_read M fmt (some "") r w
    match r with
    | none => NumberResult.returned C.SIZE_MAX input (extern_call M Effect.keyboard_quit w1)
    | some ms =>
      let n := if strlen ms = 0 then C.ULONG_MAX - 1 else C.strtoul ms
      if n = C.ULONG_MAX then
        minibuf_read_number M C fmt input (minibuf_write M "Please enter a number." [] w1)
      else NumberResult.returned n input w1

/-- A C library of a platform with 64-bit `unsigned long` and `size_t`, for
concrete runs; the conversion knows three texts: `42`, the text of `ULONG_MAX`
itself, and a text too large for an `unsigned long`, which converts to
`ULONG_MAX`; any other text converts to 0. -/
def sample_clib : CLib :=
  { ULONG_MAX := 18446744073709551615,
    SIZE_MAX := 18446744073709551615,
    strtoul := fun s =>
      if s = "42" then 42
      else if s = "18446744073709551615" then 18446744073709551615
      else if s = "99999999999999999999" then 18446744073709551615
      else 0 }

/-! ## Facts about the repetition loop -/

theorem uniarg_loop_exit {σ : Type} (c : Callee) (func : Action σ) (uniarg uni ret : Int)
    (w : World σ) (h : ret = 0 ∨ uniarg ≤ uni) :
    uniarg_loop c func uniarg uni ret w = (ret, w) := by
  rw [uniarg_loop]
  have : ¬ (ret ≠ 0 ∧ uni < uniarg) := by
    rintro ⟨h1, h2⟩
    rcases h with h | h
    · exact h1 h
    · omega
  simp [this]

theorem uniarg_loop_step {σ : Type} (c : Callee) (func : Action σ) (uniarg uni ret : Int)
    (w : World σ) (h1 : ret ≠ 0) (h2 : uni < uniarg) :
    uniarg_loop c func uniarg uni ret w =
      uniarg_loop c func uniarg (uni + 1) (call_func c func w).1 (call_func c func w).2 := by
  rw [uniarg_loop]
  simp [h1, h2]

theorem uniarg_loop_all_succeed {σ : Type} (c : Callee) (func : Action σ) (uniarg : Int) :
    ∀ (m : Nat) (uni ret : Int) (w : World σ), ret ≠ 0 → uni + m = uniarg →
      (∀ i, i < m → (func (after_calls func i w.st)).1 ≠ 0) →
      (uniarg_loop c func uniarg uni ret w).1 ≠ 0 ∧
      (uniarg_loop c func uniarg uni ret w).2 =
        { st := after_calls func m w.st,
          trace := w.trace ++ List.replicate m (Effect.call c) } := by
  intro m
  induction m with
  | zero =>
    intro uni ret w hret huni _
    rw [uniarg_loop_exit c func uniarg uni ret w (Or.inr (by omega))]
    simp [after_calls, hret]
  | succ m ih =>
    intro uni ret w hret huni hall
    rw [uniarg_loop_step c func uniarg uni ret w hret (by omega)]
    have h0 : (call_func c func w).1 ≠ 0 := by
      have := hall 0 (Nat.succ_pos m)
      simpa [call_func, after_calls] using this
    have hrest : ∀ i, i < m →
        (func (after_calls func i (call_func c func w).2.st)).1 ≠ 0 := by
      intro i hi
      have := hall (i + 1) (Nat.succ_lt_succ hi)
      simpa [call_func, after_calls] using this
    have := ih (uni + 1) (call_func c func w).1 (call_func c func w).2 h0
      (by push_cast at huni ⊢; omega) hrest
    refine ⟨this.1, ?_⟩
    rw [this.2]
    simp [call_func, after_calls, List.replicate_succ]

theorem uniarg_loop_first_failure {σ : Type} (c : Callee) (func : Action σ) (uniarg : Int) :
    ∀ (k : Nat) (uni ret : Int) (w : World σ), ret ≠ 0 → uni + (k + 1 : Nat) ≤ uniarg →
      (∀ i, i < k → (func (after_calls func i w.st)).1 ≠ 0) →
      (func (after_calls func k w.st)).1 = 0 →
      uniarg_loop c func uniarg uni ret w =
        (0, { st := after_calls func (k + 1) w.st,
              trace := w.trace ++ List.replicate (k + 1) (Effect.call c) }) := by
  intro k
  induction k with
  | zero =>
    intro uni ret w hret huni _ hfail
    rw [uniarg_loop_step c func uniarg uni ret w hret (by push_cast at huni; omega)]
    have h0 : (call_func c func w).1 = 0 := by
      simpa [call_func, after_calls] using hfail
    rw [uniarg_loop_exit c func uniarg _ _ _ (Or.inl h0), h0]
    simp [call_func, after_calls]
  | succ k ih =>
    intro uni ret w hret huni hall hfail
    rw [uniarg_loop_step c func uniarg uni ret w hret (by push_cast at huni; omega)]
    have h0 : (call_func c func w).1 ≠ 0 := by
      have := hall 0 (Nat.succ_pos k)
      simpa [call_func, after_calls] using this
    have hrest : ∀ i, i < k →
        (func (after_calls func i (call_func c func w).2.st)).1 ≠ 0 := by
      intro i hi
      have := hall (i + 1) (Nat.succ_lt_succ hi)
      simpa [call_func, after_calls] using this
    have hf : (func (after_calls func k (call_func c func w).2.st)).1 = 0 := by
      simpa [call_func, after_calls] using hfail
    rw [ih (uni + 1) (call_func c func w).1 (call_func c func w).2 h0
      (by push_cast at huni ⊢; omega) hrest hf]
    simp [call_func, after_calls, List.replicate_succ]

theorem uniarg_loop_trace {σ : Type} (c : Callee) (func : Action σ) (uniarg : Int) :
    ∀ (d : Nat) (uni ret : Int) (w : World σ), (uniarg - uni).toNat = d →
      ∃ m : Nat, (uniarg_loop c func uniarg uni ret w).2.trace =
        w.trace ++ List.replicate m (Effect.call c) := by
  intro d
  induction d with
  | zero =>
    intro uni ret w hd
    refine ⟨0, ?_⟩
    rw [uniarg_loop_exit c func uniarg uni ret w (Or.inr (by omega))]
    simp
  | succ d ih =>
    intro uni ret w hd
    by_cases hret : ret = 0
    · refine ⟨0, ?_⟩
      rw [uniarg_loop_exit c func uniarg uni ret w (Or.inl hret)]
      simp
    · rw [uniarg_loop_step c func uniarg uni ret w hret (by omega)]
      obtain ⟨m, hm⟩ := ih (uni + 1) (call_func c func w).1 (call_func c func w).2 (by omega)
      refine ⟨m + 1, ?_⟩
      rw [hm]
      simp [call_func, List.replicate_succ]

theorem choose_func_nonneg {σ : Type} (uniarg : Int) (h : 0 ≤ uniarg) (forward : Action σ)
    (backward : Option (Action σ)) :
    choose_func uniarg forward backward = (Callee.forward, forward, uniarg) := by
  cases backward with
  | none => rfl
  | some b => simp [choose_func, not_lt.mpr h]

theorem wrap_int_neg_in_range (n : Int) (h1 : INT_MIN < n) (h2 : n < 0) :
    wrap_int (-n) = -n := by
  unfold INT_MIN at h1
  unfold wrap_int
  omega

/-! ## The repetition protocol: claims C1 to C5 -/

/-- C1: with `undo` true, a count `n ≥ 0` and a forward action that reports
success in every state, `execute_with_uniarg` returns `leT`, and what it adds to
the trace is one undo-start marker, then `n` calls of `forward` (none of
`backward`), then one undo-end marker. -/
theorem execute_with_uniarg_forward_repeats {σ : Type} (U : UndoExt σ) (n : Int)
    (hn : 0 ≤ n) (forward : Action σ) (backward : Option (Action σ))
    (hf : ∀ s, (forward s).1 ≠ 0) (w : World σ) :
    (execute_with_uniarg U true n forward backward w).1 = leT ∧
    (execute_with_uniarg U true n forward backward w).2.trace =
      w.trace ++ [Effect.undo_save UndoType.UNDO_START_SEQUENCE (U.get_buffer_pt w.st) 0 0]
        ++ List.replicate n.toNat (Effect.call Callee.forward)
        ++ [Effect.undo_save UndoType.UNDO_END_SEQUENCE
              (U.get_buffer_pt (after_calls forward n.toNat
                (undo_save_here U UndoType.UNDO_START_SEQUENCE w).st)) 0 0] := by
  have hloop := uniarg_loop_all_succeed Callee.forward forward n n.toNat 0 1
    (undo_save_here U UndoType.UNDO_START_SEQUENCE w) (by decide)
    (by rw [Int.toNat_of_nonneg hn]; omega) (fun i _ => hf _)
  simp only [execute_with_uniarg, choose_func_nonneg n hn, if_true]
  refine ⟨?_, ?_⟩
  · simp [bool_to_lisp, hloop.1]
  · rw [hloop.2]
    simp [undo_save_here]

/-- C1, at `n = 3` with an incrementing forward action on a counter. -/
theorem execute_with_uniarg_forward_repeats_witness :
    (0 : Int) ≤ 3 ∧
    (execute_with_uniarg (σ := Nat) ⟨fun s => s, fun _ _ _ _ s => s⟩ true 3
        (fun s => (1, s + 1)) (some (fun s => (1, s - 1))) ⟨0, []⟩).1 = leT ∧
    (execute_with_uniarg (σ := Nat) ⟨fun s => s, fun _ _ _ _ s => s⟩ true 3
        (fun s => (1, s + 1)) (some (fun s => (1, s - 1))) ⟨0, []⟩).2.trace =
      [Effect.undo_save UndoType.UNDO_START_SEQUENCE 0 0 0,
       Effect.call Callee.forward, Effect.call Callee.forward, Effect.call Callee.forward,
       Effect.undo_save UndoType.UNDO_END_SEQUENCE 3 0 0] := by
  have h := execute_with_uniarg_forward_repeats (σ := Nat) ⟨fun s => s, fun _ _ _ _ s => s⟩ 3
    (by decide) (fun s => (1, s + 1)) (some (fun s => (1, s - 1)))
    (fun s => by simp) ⟨0, []⟩
  refine ⟨by decide, h.1, ?_⟩
  rw [h.2]
  simp [undo_save_here, after_calls, List.replicate]

/-- C2: for a count `n > 0` and an action whose first report of failure is on
its `k`-th call (`1 ≤ k ≤ n`, the calls counted from the state in which the loop
is entered), `execute_with_uniarg` calls the action exactly `k` times, emits the
undo-end marker when `undo` is true, and returns `leNIL`. -/
theorem execute_with_uniarg_first_failure {σ : Type} (U : UndoExt σ) (undo : Bool)
    (n : Int) (k : Nat) (hn : 0 < n) (hk : 1 ≤ k) (hkn : (k : Int) ≤ n)
    (forward : Action σ) (backward : Option (Action σ)) (w : World σ)
    (hok : ∀ i, i + 1 < k → (forward (after_calls forward i
      (if undo then undo_save_here U UndoType.UNDO_START_SEQUENCE w else w).st)).1 ≠ 0)
    (hfail : (forward (after_calls forward (k - 1)
      (if undo then undo_save_here U UndoType.UNDO_START_SEQUENCE w else w).st)).1 = 0) :
    (execute_with_uniarg U undo n forward backward w).1 = leNIL ∧
    (execute_with_uniarg U undo n forward backward w).2.trace =
      w.trace
        ++ (if undo then
              [Effect.undo_save UndoType.UNDO_START_SEQUENCE (U.get_buffer_pt w.st) 0 0]
            else [])
        ++ List.replicate k (Effect.call Callee.forward)
        ++ (if undo then
              [Effect.undo_save UndoType.UNDO_END_SEQUENCE
                (U.get_buffer_pt (after_calls forward k
                  (if undo then undo_save_here U UndoType.UNDO_START_SEQUENCE w else w).st)) 0 0]
            else []) := by
  obtain ⟨j, rfl⟩ : ∃ j, k = j + 1 := ⟨k - 1, by omega⟩
  have hloop := uniarg_loop_first_failure Callee.forward forward n j 0 1
    (if undo then undo_save_here U UndoType.UNDO_START_SEQUENCE w else w) (by decide)
    (by omega) (fun i hi => hok i (by omega)) (by simpa using hfail)
  simp only [execute_with_uniarg, choose_func_nonneg n (le_of_lt hn)]
  rw [hloop]
  cases undo <;> simp [bool_to_lisp, undo_save_here]

/-- C2, at `n = 5`, `k = 3`, no backward action: the action counts its calls and
fails on the third. -/
theorem execute_with_uniarg_first_failure_witness :
    (0 : Int) < 5 ∧ 1 ≤ 3 ∧ ((3 : Nat) : Int) ≤ 5 ∧
    (execute_with_uniarg (σ := Nat) ⟨fun s => s, fun _ _ _ _ s => s⟩ true 5
        (fun s => (if s + 1 = 3 then 0 else 1, s + 1)) none ⟨0, []⟩).1 = leNIL ∧
    (execute_with_uniarg (σ := Nat) ⟨fun s => s, fun _ _ _ _ s => s⟩ true 5
        (fun s => (if s + 1 = 3 then 0 else 1, s + 1)) none ⟨0, []⟩).2.trace =
      [Effect.undo_save UndoType.UNDO_START_SEQUENCE 0 0 0,
       Effect.call Callee.forward, Effect.call Callee.forward, Effect.call Callee.forward,
       Effect.undo_save UndoType.UNDO_END_SEQUENCE 3 0 0] := by
  have h := execute_with_uniarg_first_failure (σ := Nat) ⟨fun s => s, fun _ _ _ _ s => s⟩
    true 5 3 (by decide) (by decide) (by decide)
    (fun s => (if s + 1 = 3 then 0 else 1, s + 1)) none ⟨0, []⟩
    (by
      intro i hi
      have hi2 : i = 0 ∨ i = 1 := by omega
      rcases hi2 with rfl | rfl <;> simp [undo_save_here, after_calls])
    (by simp [undo_save_here, after_calls])
  refine ⟨by decide, by decide, by decide, h.1, ?_⟩
  rw [h.2]
  simp [undo_save_here, after_calls, List.replicate]

/-- C3: whatever the count and whatever the action reports, what
`execute_with_uniarg` adds to the trace with `undo` true is one
`UNDO_START_SEQUENCE` marker, then calls of the action only, then one
`UNDO_END_SEQUENCE` marker; with `undo` false it adds calls of the action only,
and so no undo marker. -/
theorem execute_with_uniarg_undo_bracket {σ : Type} (U : UndoExt σ) (uniarg : Int)
    (forward : Action σ) (backward : Option (Action σ)) (w : World σ) :
    (∃ (pt pt' : Int) (c : Callee) (m : Nat),
      (execute_with_uniarg U true uniarg forward backward w).2.trace =
        w.trace ++ [Effect.undo_save UndoType.UNDO_START_SEQUENCE pt 0 0]
          ++ List.replicate m (Effect.call c)
          ++ [Effect.undo_save UndoType.UNDO_END_SEQUENCE pt' 0 0]) ∧
    (∃ (c : Callee) (m : Nat),
      (execute_with_uniarg U false uniarg forward backward w).2.trace =
        w.trace ++ List.replicate m (Effect.call c)) := by
  constructor
  · obtain ⟨m, hm⟩ := uniarg_loop_trace (choose_func uniarg forward backward).1
      (choose_func uniarg forward backward).2.1 (choose_func uniarg forward backward).2.2
      _ 0 1 (undo_save_here U UndoType.UNDO_START_SEQUENCE w) rfl
    refine ⟨U.get_buffer_pt w.st,
      U.get_buffer_pt (uniarg_loop (choose_func uniarg forward backward).1
        (choose_func uniarg forward backward).2.1 (choose_func uniarg forward backward).2.2
        0 1 (undo_save_here U UndoType.UNDO_START_SEQUENCE w)).2.st,
      (choose_func uniarg forward backward).1, m, ?_⟩
    simp only [execute_with_uniarg, if_true]
    simp only [undo_save_here] at hm ⊢
    rw [hm]
  · obtain ⟨m, hm⟩ := uniarg_loop_trace (choose_func uniarg forward backward).1
      (choose_func uniarg forward backward).2.1 (choose_func uniarg forward backward).2.2
      _ 0 1 w rfl
    refine ⟨(choose_func uniarg forward backward).1, m, ?_⟩
    simpa [execute_with_uniarg] using hm

/-- For a count `n` with `INT_MIN < n < 0`, a backward action supplied and
reporting success in every state: `forward` is never called, `backward` is
called exactly `-n` times, and the result is `leT`. -/
theorem execute_with_uniarg_backward_in_range {σ : Type} (U : UndoExt σ) (undo : Bool)
    (n : Int) (hmin : INT_MIN < n) (hneg : n < 0) (forward backward : Action σ)
    (hb : ∀ s, (backward s).1 ≠ 0) (w : World σ) :
    (execute_with_uniarg U undo n forward (some backward) w).1 = leT ∧
    (execute_with_uniarg U undo n forward (some backward) w).2.trace =
      w.trace
        ++ (if undo then
              [Effect.undo_save UndoType.UNDO_START_SEQUENCE (U.get_buffer_pt w.st) 0 0]
            else [])
        ++ List.replicate (-n).toNat (Effect.call Callee.backward)
        ++ (if undo then
              [Effect.undo_save UndoType.UNDO_END_SEQUENCE
                (U.get_buffer_pt (after_calls backward (-n).toNat
                  (if undo then undo_save_here U UndoType.UNDO_START_SEQUENCE w else w).st)) 0 0]
            else []) := by
  have hsel : choose_func n forward (some backward) = (Callee.backward, backward, -n) := by
    simp [choose_func, hneg, wrap_int_neg_in_range n hmin hneg]
  have hloop := uniarg_loop_all_succeed Callee.backward backward (-n) (-n).toNat 0 1
    (if undo then undo_save_here U UndoType.UNDO_START_SEQUENCE w else w) (by decide)
    (by rw [Int.toNat_of_nonneg (by omega)]; omega) (fun i _ => hb _)
  simp only [execute_with_uniarg, hsel]
  refine ⟨?_, ?_⟩
  · simp [bool_to_lisp, hloop.1]
  · rw [hloop.2]
    cases undo <;> simp [undo_save_here]

/-- C4, at the count `INT_MIN`: the negated count is `INT_MIN` again, so with a
backward action supplied neither action is called at all (instead of
2147483648 calls of `backward`), and the result is `leT`. -/
theorem execute_with_uniarg_int_min {σ : Type} (U : UndoExt σ)
    (forward backward : Action σ) (w : World σ) :
    choose_func INT_MIN forward (some backward) = (Callee.backward, backward, INT_MIN) ∧
    execute_with_uniarg U false INT_MIN forward (some backward) w = (leT, w) ∧
    (execute_with_uniarg U true INT_MIN forward (some backward) w).2.trace =
      w.trace ++ [Effect.undo_save UndoType.UNDO_START_SEQUENCE (U.get_buffer_pt w.st) 0 0,
        Effect.undo_save UndoType.UNDO_END_SEQUENCE
          (U.get_buffer_pt (undo_save_here U UndoType.UNDO_START_SEQUENCE w).st) 0 0] := by
  have hsel : choose_func INT_MIN forward (some backward)
      = (Callee.backward, backward, INT_MIN) := by
    simp [choose_func, INT_MIN, wrap_int]
  refine ⟨hsel, ?_, ?_⟩
  · simp only [execute_with_uniarg, hsel]
    rw [uniarg_loop_exit _ _ _ _ _ _ (Or.inr (by decide))]
    simp [bool_to_lisp]
  · simp only [execute_with_uniarg, hsel]
    rw [uniarg_loop_exit _ _ _ _ _ _ (Or.inr (by decide))]
    simp [undo_save_here]

/-- C5 fails at `n = -3` with no backward action: the forward action, which
would report success and count its calls, is not called, and the state it
would have changed is untouched. -/
theorem execute_with_uniarg_negative_no_backward_counterexample :
    Effect.call Callee.forward ∉
      (execute_with_uniarg (σ := Nat) ⟨fun s => s, fun _ _ _ _ s => s⟩ false (-3)
        (fun s => (1, s + 1)) none ⟨0, []⟩).2.trace ∧
    (execute_with_uniarg (σ := Nat) ⟨fun s => s, fun _ _ _ _ s => s⟩ false (-3)
        (fun s => (1, s + 1)) none ⟨0, []⟩).2.st = 0 := by
  simp only [execute_with_uniarg, choose_func]
  rw [uniarg_loop_exit _ _ _ _ _ _ (Or.inr (by decide))]
  simp

/-- C5, amended: for a negative count and no backward action, `forward` stays
the chosen function and the count is left as it is, the loop body never runs
(no call of `forward`, which takes no argument), only the undo markers are
emitted when `undo` is true, and the result is `leT`. -/
theorem execute_with_uniarg_negative_no_backward {σ : Type} (U : UndoExt σ) (undo : Bool)
    (n : Int) (hneg : n < 0) (forward : Action σ) (w : World σ) :
    choose_func n forward none = (Callee.forward, forward, n) ∧
    execute_with_uniarg U undo n forward none w =
      (leT, if undo then
              undo_save_here U UndoType.UNDO_END_SEQUENCE
                (undo_save_here U UndoType.UNDO_START_SEQUENCE w)
            else w) := by
  refine ⟨rfl, ?_⟩
  simp only [execute_with_uniarg, choose_func]
  rw [uniarg_loop_exit _ _ _ _ _ _ (Or.inr (by omega))]
  cases undo <;> simp [bool_to_lisp]

/-- C5 amended, at `n = -3`. -/
theorem execute_with_uniarg_negative_no_backward_witness :
    (-3 : Int) < 0 ∧
    execute_with_uniarg (σ := Nat) ⟨fun s => s, fun _ _ _ _ s => s⟩ false (-3)
        (fun s => (1, s + 1)) none ⟨0, []⟩ = (leT, ⟨0, []⟩) :=
  ⟨by decide,
   (execute_with_uniarg_negative_no_backward (σ := Nat) ⟨fun s => s, fun _ _ _ _ s => s⟩
      false (-3) (by decide) (fun s => (1, s + 1)) ⟨0, []⟩).2⟩

/-! ## The function table: claims C6 to C8 -/

theorem strcmpChars_eq_zero_iff : ∀ (a b : List Char), strcmpChars a b = 0 ↔ a = b
  | [], [] => by simp [strcmpChars]
  | [], _ :: _ => by simp [strcmpChars]
  | _ :: _, [] => by simp [strcmpChars]
  | a :: as, b :: bs => by
    by_cases h : a = b
    · simp [strcmpChars, h, strcmpChars_eq_zero_iff as bs]
    · have hne : (a.toNat : Int) - (b.toNat : Int) ≠ 0 := by
        intro h0
        apply h
        have h1 : a.toNat = b.toNat := by omega
        exact Char.ext (UInt32.ext (by simpa [Char.toNat] using h1))
      simp [strcmpChars, h, hne]

theorem strcmp_eq_zero_iff (a b : String) : strcmp a b = 0 ↔ a = b := by
  unfold strcmp
  rw [strcmpChars_eq_zero_iff]
  exact ⟨fun h => String.ext h, fun h => by rw [h]⟩

theorem strcmp_self (a : String) : strcmp a a = 0 := (strcmp_eq_zero_iff a a).mpr rfl

theorem get_fentry_eq_none_iff (tbl : List fentry) (name : String) :
    get_fentry tbl name = none ↔ ∀ e ∈ tbl, e.name ≠ name := by
  induction tbl with
  | nil => simp [get_fentry]
  | cons e rest ih =>
    by_cases h : name = e.name
    · subst h
      simp [get_fentry, strcmp_self]
    · have h0 : strcmp name e.name ≠ 0 := fun h0 => h ((strcmp_eq_zero_iff _ _).mp h0)
      simp [get_fentry, h0, ih, Ne.symm h]

theorem get_fentry_eq_find (tbl : List fentry) (name : String) :
    get_fentry tbl name = tbl.find? (fun e => decide (e.name = name)) := by
  induction tbl with
  | nil => rfl
  | cons e rest ih =>
    by_cases h : name = e.name
    · subst h
      simp [get_fentry, strcmp_self]
    · have h0 : strcmp name e.name ≠ 0 := fun h0 => h ((strcmp_eq_zero_iff _ _).mp h0)
      simp [get_fentry, h0, ih, List.find?, Ne.symm h]

theorem get_fentry_of_mem (tbl : List fentry) (hnodup : (tbl.map fentry.name).Nodup)
    (e : fentry) (he : e ∈ tbl) : get_fentry tbl e.name = some e := by
  induction tbl with
  | nil => cases he
  | cons x rest ih =>
    rw [List.map_cons, List.nodup_cons] at hnodup
    by_cases h : e.name = x.name
    · have hex : e = x := by
        rcases List.mem_cons.mp he with h1 | h1
        · exact h1
        · exact absurd (h ▸ List.mem_map_of_mem fentry.name h1) hnodup.1
      subst hex
      simp [get_fentry, strcmp_self]
    · have h0 : strcmp e.name x.name ≠ 0 := fun h0 => h ((strcmp_eq_zero_iff _ _).mp h0)
      have hmem : e ∈ rest := by
        rcases List.mem_cons.mp he with h1 | h1
        · exact absurd (by rw [h1]) h
        · exact h1
      simp [get_fentry, h0, ih hnodup.2 hmem]

theorem get_fentry_some_mem (tbl : List fentry) (name : String) (e : fentry)
    (h : get_fentry tbl name = some e) : e ∈ tbl ∧ e.name = name := by
  rw [get_fentry_eq_find] at h
  refine ⟨List.mem_of_find?_eq_some h, ?_⟩
  simpa using List.find?_some h

/-- C6: `execute_function` is the three-case dispatch of the specification with
the built-ins probed first. It agrees with `execute_named_spec`; when the table
has an entry named `name`, the action of such an entry is called once with the
count, its result is returned and no macro is played, whatever the macro store
holds; when it has none and a macro of that name exists, the macro is played
once and the result is `leT`; when neither exists, nothing is executed and the
result is `leNIL`. -/
theorem execute_function_three_cases {σ : Type} (X : LispExt σ) (tbl : List fentry)
    (name : String) (uniarg : Int) (w : World σ) :
    execute_function X tbl name uniarg w = execute_named_spec X tbl name uniarg w ∧
    ((∃ e ∈ tbl, e.name = name) →
      ∃ e ∈ tbl, e.name = name ∧
        execute_function X tbl name uniarg w =
          ((X.apply e.func uniarg (le.ref LUA_REFNIL) w.st).1,
           { st := (X.apply e.func uniarg (le.ref LUA_REFNIL) w.st).2,
             trace := w.trace ++ [Effect.func e.func uniarg (le.ref LUA_REFNIL)] })) ∧
    ((∀ e ∈ tbl, e.name ≠ name) → ∀ mp, X.get_macro name w.st = some mp →
      execute_function X tbl name uniarg w =
        (leT, { st := X.call_macro mp w.st, trace := w.trace ++ [Effect.call_macro mp] })) ∧
    ((∀ e ∈ tbl, e.name ≠ name) → X.get_macro name w.st = none →
      execute_function X tbl name uniarg w = (leNIL, w)) := by
  refine ⟨?_, ?_, ?_, ?_⟩
  · simp only [execute_function, execute_named_spec, resolve_spec, get_function,
      get_fentry_eq_find]
    cases List.find? (fun e => decide (e.name = name)) tbl <;> rfl
  · intro hex
    cases hget : get_fentry tbl name with
    | none =>
      obtain ⟨e, he, hname⟩ := hex
      exact absurd hname ((get_fentry_eq_none_iff tbl name).mp hget e he)
    | some e =>
      obtain ⟨hmem, hname⟩ := get_fentry_some_mem tbl name e hget
      exact ⟨e, hmem, hname, by simp [execute_function, get_function, hget]⟩
  · intro hnone mp hmp
    have hget := (get_fentry_eq_none_iff tbl name).mpr hnone
    simp [execute_function, get_function, hget, hmp]
  · intro hnone hmp
    have hget := (get_fentry_eq_none_iff tbl name).mpr hnone
    simp [execute_function, get_function, hget, hmp]

/-- C6, on a table holding `forward-char` and a macro store holding macros named
`forward-char` and `my-macro`: the built-in wins for `forward-char`, the macro
is played for `my-macro`, and nothing runs for `no-such-command`. -/
theorem execute_function_three_cases_witness :
    execute_function (σ := Nat)
        ⟨fun _ n _ s => (le.ref n, s + 1),
         fun name _ => if name = "forward-char" then some ⟨1⟩
                       else if name = "my-macro" then some ⟨2⟩ else none,
         fun _ s => s + 10⟩
        [⟨"forward-char", ⟨7⟩, true, "Move point right."⟩] "forward-char" 4 ⟨0, []⟩
      = (le.ref 4, ⟨1, [Effect.func ⟨7⟩ 4 (le.ref LUA_REFNIL)]⟩) ∧
    execute_function (σ := Nat)
        ⟨fun _ n _ s => (le.ref n, s + 1),
         fun name _ => if name = "forward-char" then some ⟨1⟩
                       else if name = "my-macro" then some ⟨2⟩ else none,
         fun _ s => s + 10⟩
        [⟨"forward-char", ⟨7⟩, true, "Move point right."⟩] "my-macro" 4 ⟨0, []⟩
      = (leT, ⟨10, [Effect.call_macro ⟨2⟩]⟩) ∧
    execute_function (σ := Nat)
        ⟨fun _ n _ s => (le.ref n, s + 1),
         fun name _ => if name = "forward-char" then some ⟨1⟩
                       else if name = "my-macro" then some ⟨2⟩ else none,
         fun _ s => s + 10⟩
        [⟨"forward-char", ⟨7⟩, true, "Move point right."⟩] "no-such-command" 4 ⟨0, []⟩
      = (leNIL, ⟨0, []⟩) := by
  refine ⟨?_, ?_, ?_⟩
  · obtain ⟨e, he, _, h⟩ := (execute_function_three_cases (σ := Nat)
        ⟨fun _ n _ s => (le.ref n, s + 1),
         fun name _ => if name = "forward-char" then some ⟨1⟩
                       else if name = "my-macro" then some ⟨2⟩ else none,
         fun _ s => s + 10⟩
        [⟨"forward-char", ⟨7⟩, true, "Move point right."⟩] "forward-char" 4 ⟨0, []⟩).2.1
        ⟨_, List.mem_singleton.mpr rfl, rfl⟩
    rw [List.mem_singleton.mp he] at h
    simpa using h
  · have h := (execute_function_three_cases (σ := Nat)
        ⟨fun _ n _ s => (le.ref n, s + 1),
         fun name _ => if name = "forward-char" then some ⟨1⟩
                       else if name = "my-macro" then some ⟨2⟩ else none,
         fun _ s => s + 10⟩
        [⟨"forward-char", ⟨7⟩, true, "Move point right."⟩] "my-macro" 4 ⟨0, []⟩).2.2.1
        (by intro e he; rw [List.mem_singleton.mp he]; decide) ⟨2⟩ (by decide)
    simpa using h
  · have h := (execute_function_three_cases (σ := Nat)
        ⟨fun _ n _ s => (le.ref n, s + 1),
         fun name _ => if name = "forward-char" then some ⟨1⟩
                       else if name = "my-macro" then some ⟨2⟩ else none,
         fun _ s => s + 10⟩
        [⟨"forward-char", ⟨7⟩, true, "Move point right."⟩] "no-such-command" 4 ⟨0, []⟩).2.2.2
        (by intro e he; rw [List.mem_singleton.mp he]; decide) (by decide)
    simpa using h

/-- C7: when the names of the table are unique, `get_function` applied to the
name of any entry of the table (interactive or not) is not `NULL` and is the
function stored in that entry. -/
theorem get_function_round_trip (tbl : List fentry)
    (hnodup : (tbl.map fentry.name).Nodup) (e : fentry) (he : e ∈ tbl) :
    get_function tbl e.name = some e.func := by
  simp [get_function, get_fentry_of_mem tbl hnodup e he]

/-- C7, on a table of three entries, looked up at the interactive `find-file`. -/
theorem get_function_round_trip_witness :
    get_function
      [⟨"forward-char", ⟨7⟩, true, "Move point right."⟩,
       ⟨"find-file", ⟨8⟩, true, "Edit a file."⟩,
       ⟨"setq", ⟨9⟩, false, "Set each sym to the value of its val."⟩]
      "find-file" = some ⟨8⟩ :=
  get_function_round_trip
    [⟨"forward-char", ⟨7⟩, true, "Move point right."⟩,
     ⟨"find-file", ⟨8⟩, true, "Edit a file."⟩,
     ⟨"setq", ⟨9⟩, false, "Set each sym to the value of its val."⟩]
    (by decide) ⟨"find-file", ⟨8⟩, true, "Edit a file."⟩ (by simp)

/-- C8: `get_function` and `get_function_doc` return `NULL` exactly when no entry
of the table has a name equal to `name`, character for character; on a table
holding `find-file`, neither `Find-File` (letter case) nor `find-` (a proper
prefix) is found. -/
theorem get_function_not_found_iff (tbl : List fentry) (name : String) :
    (get_function tbl name = none ↔ ∀ e ∈ tbl, e.name ≠ name) ∧
    (get_function_doc tbl name = none ↔ ∀ e ∈ tbl, e.name ≠ name) ∧
    get_function [⟨"find-file", ⟨8⟩, true, "Edit a file."⟩] "Find-File" = none ∧
    get_function [⟨"find-file", ⟨8⟩, true, "Edit a file."⟩] "find-" = none := by
  have key : ∀ (t : List fentry) (n : String),
      get_function t n = none ↔ ∀ e ∈ t, e.name ≠ n := by
    intro t n
    rw [← get_fentry_eq_none_iff]
    unfold get_function
    cases get_fentry t n <;> simp
  refine ⟨key tbl name, ?_, ?_, ?_⟩
  · rw [← get_fentry_eq_none_iff]
    unfold get_function_doc
    cases get_fentry tbl name <;> simp
  · rw [key]
    intro e he
    rw [List.mem_singleton.mp he]
    decide
  · rw [key]
    intro e he
    rw [List.mem_singleton.mp he]
    decide

/-! ## The minibuffer read loop: claims C9 and C10 -/

theorem minibuf_vread_completion_empty {σ : Type} (M : MinibufExt σ) (fmt value : String)
    (cp hp : Int) (empty_err invalid_err : String) (input : List (Option String))
    (w : World σ) :
    minibuf_vread_completion M fmt value cp hp empty_err invalid_err (some "" :: input) w =
      ReadResult.returned none input
        (minibuf_error M empty_err []
          (extern_call M (Effect.term_minibuf_read fmt value (-1) cp hp (some "")) w)) := by
  simp [minibuf_vread_completion, minibuf_vread_completion_body]

theorem minibuf_vread_completion_append {σ : Type} (M : MinibufExt σ) (fmt value : String)
    (cp hp : Int) (empty_err invalid_err : String) :
    ∀ (pre more : List (Option String)) (w w' : World σ),
      minibuf_vread_completion M fmt value cp hp empty_err invalid_err pre w
        = ReadResult.reading w' →
      minibuf_vread_completion M fmt value cp hp empty_err invalid_err (pre ++ more) w
        = minibuf_vread_completion M fmt value cp hp empty_err invalid_err more w' := by
  intro pre
  induction pre with
  | nil =>
    intro more w w' h
    simp only [minibuf_vread_completion, ReadResult.reading.injEq] at h
    simp [h]
  | cons r pre ih =>
    intro more w w' h
    simp only [minibuf_vread_completion, List.cons_append] at h ⊢
    cases hb : minibuf_vread_completion_body M fmt value cp hp empty_err invalid_err r w with
    | break_with ms w1 => simp [hb] at h
    | again w1 =>
      rw [hb] at h
      exact ih more w1 w' h

/-- C9 fails on the submissions `""`, `find-file`: the call returns `NULL` after
the empty submission, with `find-file` never read. -/
theorem minibuf_vread_completion_empty_counterexample :
    minibuf_vread_completion sample_minibuf "M-x " "" 0 LUA_REFNIL
        "No function name given" "Undefined function name" [some "", some "find-file"]
        ⟨(), []⟩ =
      ReadResult.returned none [some "find-file"]
        ⟨(), [Effect.term_minibuf_read "M-x " "" (-1) 0 LUA_REFNIL (some ""),
              Effect.minibuf_vwrite "No function name given" [], Effect.ding]⟩ := by
  simp [minibuf_vread_completion, minibuf_vread_completion_body, minibuf_error,
    minibuf_vwrite, extern_call]

/-- C9, amended: when the user submits an empty buffer, the loop emits the
empty-error message and ends the read: `minibuf_vread_completion` returns `NULL`
without calling `term_minibuf_read` again, whatever the user would submit next. -/
theorem minibuf_vread_completion_empty_ends_read {σ : Type} (M : MinibufExt σ)
    (fmt value : String) (cp hp : Int) (empty_err invalid_err : String)
    (input : List (Option String)) (w : World σ) :
    ∃ w' : World σ,
      minibuf_vread_completion M fmt value cp hp empty_err invalid_err (some "" :: input) w
        = ReadResult.returned none input w' ∧
      w'.trace = w.trace ++
        [Effect.term_minibuf_read fmt value (-1) cp hp (some ""),
         Effect.minibuf_vwrite empty_err [], Effect.ding] :=
  ⟨_, minibuf_vread_completion_empty M fmt value cp hp empty_err invalid_err input w,
    by simp [minibuf_error, minibuf_vwrite, extern_call]⟩

/-- C10: at every attempt of the loop (after any submissions `pre` that were all
rejected), the submission of an empty buffer adds to the trace the read itself
and the empty-error message (its write and its `ding`) and nothing else: no
`completion_try`, no `minibuf_test_in_completions`, no `add_history_element`. -/
theorem minibuf_vread_completion_empty_attempt {σ : Type} (M : MinibufExt σ)
    (fmt value : String) (cp hp : Int) (empty_err invalid_err : String)
    (pre rest : List (Option String)) (w w' : World σ)
    (hpre : minibuf_vread_completion M fmt value cp hp empty_err invalid_err pre w
      = ReadResult.reading w') :
    ∃ w'' : World σ,
      minibuf_vread_completion M fmt value cp hp empty_err invalid_err
          (pre ++ some "" :: rest) w
        = ReadResult.returned none rest w'' ∧
      w''.trace = w'.trace ++
        [Effect.term_minibuf_read fmt value (-1) cp hp (some ""),
         Effect.minibuf_vwrite empty_err [], Effect.ding] := by
  refine ⟨minibuf_error M empty_err []
    (extern_call M (Effect.term_minibuf_read fmt value (-1) cp hp (some "")) w'), ?_, ?_⟩
  · rw [minibuf_vread_completion_append M fmt value cp hp empty_err invalid_err pre _ w w' hpre]
    exact minibuf_vread_completion_empty M fmt value cp hp empty_err invalid_err rest w'
  · simp [minibuf_error, minibuf_vwrite, extern_call]

/-- C10, on the submissions `zzz` (rejected), then `""`, with a history supplied. -/
theorem minibuf_vread_completion_empty_attempt_witness :
    ∃ w'' : World Unit,
      minibuf_vread_completion sample_minibuf "M-x " "" 0 5
          "No function name given" "Undefined function name"
          ([some "zzz"] ++ some "" :: [some "find-file"]) ⟨(), []⟩
        = ReadResult.returned none [some "find-file"] w'' ∧
      w''.trace =
        [Effect.term_minibuf_read "M-x " "" (-1) 0 5 (some "zzz"),
         Effect.completion_try 0 "zzz",
         Effect.minibuf_test_in_completions "zzz" 0,
         Effect.minibuf_vwrite "Undefined function name" ["zzz"], Effect.ding,
         Effect.waitkey] ++
        [Effect.term_minibuf_read "M-x " "" (-1) 0 5 (some ""),
         Effect.minibuf_vwrite "No function name given" [], Effect.ding] :=
  minibuf_vread_completion_empty_attempt sample_minibuf "M-x " "" 0 5
    "No function name given" "Undefined function name" [some "zzz"] [some "find-file"]
    ⟨(), []⟩
    ⟨(), [Effect.term_minibuf_read "M-x " "" (-1) 0 5 (some "zzz"),
          Effect.completion_try 0 "zzz",
          Effect.minibuf_test_in_completions "zzz" 0,
          Effect.minibuf_vwrite "Undefined function name" ["zzz"], Effect.ding,
          Effect.waitkey]⟩
    (by simp [minibuf_vread_completion, minibuf_vread_completion_body, minibuf_error,
          minibuf_vwrite, extern_call, sample_minibuf, COMPLETION_NOTMATCHED,
          COMPLETION_MATCHED, COMPLETION_NONUNIQUE])

/-! ## The minibuffer read loop: claims C11 to C16 and C19 -/

theorem minibuf_vread_completion_body_some {σ : Type} (M : MinibufExt σ) (fmt value : String)
    (cp hp : Int) (empty_err invalid_err : String) (ms : String) (hne : ms ≠ "")
    (w : World σ) (t : String) (w3 : World σ)
    (hstep : completion_step M cp ms
      (extern_call M (Effect.term_minibuf_read fmt value (-1) cp hp (some ms)) w) = (t, w3)) :
    minibuf_vread_completion_body M fmt value cp hp empty_err invalid_err (some ms) w =
      if M.minibuf_test_in_completions t cp w3.st = true then
        LoopExit.break_with (some t)
          (minibuf_clear M
            (if hp ≠ LUA_REFNIL then
              extern_call M (Effect.add_history_element hp t)
                (extern_call M (Effect.minibuf_test_in_completions t cp) w3)
            else extern_call M (Effect.minibuf_test_in_completions t cp) w3))
      else
        LoopExit.again
          (extern_call M Effect.waitkey
            (minibuf_error M invalid_err [t]
              (extern_call M (Effect.minibuf_test_in_completions t cp) w3))) := by
  simp only [completion_step, Prod.mk.injEq] at hstep
  obtain ⟨h1, h2⟩ := hstep
  subst h1 h2
  simp only [minibuf_vread_completion_body, if_neg hne]

theorem completion_step_trace {σ : Type} (M : MinibufExt σ) (cp : Int) (ms : String)
    (w1 : World σ) :
    ∃ mid, (completion_step M cp ms w1).2.trace
        = w1.trace ++ Effect.completion_try cp ms :: mid ∧
      (mid = [] ∨ mid = [Effect.popup_completion cp]) := by
  simp only [completion_step]
  split_ifs
  · exact ⟨[], by simp [extern_call], Or.inl rfl⟩
  · exact ⟨[Effect.popup_completion cp], by simp [extern_call], Or.inr rfl⟩
  · exact ⟨[], by simp [extern_call], Or.inl rfl⟩

theorem minibuf_vread_completion_body_effects {σ : Type} (M : MinibufExt σ)
    (fmt value : String) (cp hp : Int) (empty_err invalid_err : String)
    (r : Option String) (w : World σ) :
    ∃ new,
      (minibuf_vread_completion_body M fmt value cp hp empty_err invalid_err r w).world.trace
        = w.trace ++ Effect.term_minibuf_read fmt value (-1) cp hp r :: new ∧
      (∀ e ∈ new, is_dispatch e = false) ∧
      (∀ t w', minibuf_vread_completion_body M fmt value cp hp empty_err invalid_err r w
          = LoopExit.break_with (some t) w' →
        new.filter is_add_history
          = (if hp ≠ LUA_REFNIL then [Effect.add_history_element hp t] else []) ∧
        ∃ mid, new = mid ++ [Effect.term_minibuf_write ""]) ∧
      (∀ w', minibuf_vread_completion_body M fmt value cp hp empty_err invalid_err r w
          = LoopExit.break_with none w' → new.filter is_add_history = []) ∧
      (∀ w', minibuf_vread_completion_body M fmt value cp hp empty_err invalid_err r w
          = LoopExit.again w' → new.filter is_add_history = []) := by
  cases r with
  | none =>
    refine ⟨[Effect.keyboard_quit], ?_, ?_, ?_, ?_, ?_⟩ <;>
      simp [minibuf_vread_completion_body, extern_call, LoopExit.world, is_dispatch,
        is_add_history]
  | some ms =>
    by_cases hne : ms = ""
    · refine ⟨[Effect.minibuf_vwrite empty_err [], Effect.ding], ?_, ?_, ?_, ?_, ?_⟩ <;>
        simp [minibuf_vread_completion_body, hne, extern_call, minibuf_error, minibuf_vwrite,
          LoopExit.world, is_dispatch, is_add_history]
    · rcases hstep : completion_step M cp ms
        (extern_call M (Effect.term_minibuf_read fmt value (-1) cp hp (some ms)) w)
        with ⟨t, w3⟩
      obtain ⟨mid, hmid, hcases⟩ := completion_step_trace M cp ms
        (extern_call M (Effect.term_minibuf_read fmt value (-1) cp hp (some ms)) w)
      rw [hstep] at hmid
      simp only [extern_call] at hmid
      rw [minibuf_vread_completion_body_some M fmt value cp hp empty_err invalid_err ms hne w
        t w3 hstep]
      by_cases hb : M.minibuf_test_in_completions t cp w3.st = true
      · rw [if_pos hb]
        by_cases hhp : hp ≠ LUA_REFNIL
        · refine ⟨Effect.completion_try cp ms :: mid ++
            [Effect.minibuf_test_in_completions t cp, Effect.add_history_element hp t,
             Effect.term_minibuf_write ""], ?_, ?_, ?_, ?_, ?_⟩
          · simp [LoopExit.world, minibuf_clear, extern_call, hhp, hmid]
          · rcases hcases with rfl | rfl <;> simp [is_dispatch]
          · intro t' w' h
            simp only [LoopExit.break_with.injEq, Option.some.injEq] at h
            obtain ⟨rfl, -⟩ := h
            refine ⟨?_, Effect.completion_try cp ms :: mid ++
              [Effect.minibuf_test_in_completions t cp, Effect.add_history_element hp t],
              by simp⟩
            rcases hcases with rfl | rfl <;> simp [is_add_history, hhp]
          · intro w' h
            simp at h
          · intro w' h
            simp at h
        · refine ⟨Effect.completion_try cp ms :: mid ++
            [Effect.minibuf_test_in_completions t cp, Effect.term_minibuf_write ""],
            ?_, ?_, ?_, ?_, ?_⟩
          · simp [LoopExit.world, minibuf_clear, extern_call, hhp, hmid]
          · rcases hcases with rfl | rfl <;> simp [is_dispatch]
          · intro t' w' h
            simp only [LoopExit.break_with.injEq, Option.some.injEq] at h
            obtain ⟨rfl, -⟩ := h
            refine ⟨?_, Effect.completion_try cp ms :: mid ++
              [Effect.minibuf_test_in_completions t cp], by simp⟩
            rcases hcases with rfl | rfl <;> simp [is_add_history, hhp]
          · intro w' h
            simp at h
          · intro w' h
            simp at h
      · rw [if_neg hb]
        refine ⟨Effect.completion_try cp ms :: mid ++
          [Effect.minibuf_test_in_completions t cp, Effect.minibuf_vwrite invalid_err [t],
           Effect.ding, Effect.waitkey], ?_, ?_, ?_, ?_, ?_⟩
        · simp [LoopExit.world, minibuf_error, minibuf_vwrite, extern_call, hmid]
        · rcases hcases with rfl | rfl <;> simp [is_dispatch]
        · intro t' w' h
          simp at h
        · intro w' h
          simp at h
        · intro w' _
          rcases hcases with rfl | rfl <;> simp [is_add_history]

theorem minibuf_vread_completion_effects {σ : Type} (M : MinibufExt σ)
    (fmt value : String) (cp hp : Int) (empty_err invalid_err : String) :
    ∀ (input : List (Option String)) (w : World σ),
    ∃ new,
      (minibuf_vread_completion M fmt value cp hp empty_err invalid_err input w).world.trace
        = w.trace ++ new ∧
      (∀ e ∈ new, is_dispatch e = false) ∧
      (∀ t rest w', minibuf_vread_completion M fmt value cp hp empty_err invalid_err input w
          = ReadResult.returned (some t) rest w' →
        new.filter is_add_history
          = (if hp ≠ LUA_REFNIL then [Effect.add_history_element hp t] else []) ∧
        ∃ mid, new = mid ++ [Effect.term_minibuf_write ""]) ∧
      (∀ rest w', minibuf_vread_completion M fmt value cp hp empty_err invalid_err input w
          = ReadResult.returned none rest w' → new.filter is_add_history = []) ∧
      (∀ w', minibuf_vread_completion M fmt value cp hp empty_err invalid_err input w
          = ReadResult.reading w' → new.filter is_add_history = []) := by
  intro input
  induction input with
  | nil =>
    intro w
    exact ⟨[], by simp [minibuf_vread_completion, ReadResult.world], by simp,
      by simp [minibuf_vread_completion], by simp, by simp⟩
  | cons r input ih =>
    intro w
    obtain ⟨new1, htr, hdisp, hsome, hnone, hagain⟩ :=
      minibuf_vread_completion_body_effects M fmt value cp hp empty_err invalid_err r w
    cases hb : minibuf_vread_completion_body M fmt value cp hp empty_err invalid_err r w with
    | break_with ms w1 =>
      rw [hb] at htr
      simp only [LoopExit.world] at htr
      refine ⟨Effect.term_minibuf_read fmt value (-1) cp hp r :: new1, ?_, ?_, ?_, ?_, ?_⟩
      · simp [minibuf_vread_completion, hb, ReadResult.world, htr]
      · intro e he
        rcases List.mem_cons.mp he with rfl | he
        · rfl
        · exact hdisp e he
      · intro t rest w' h
        simp only [minibuf_vread_completion, hb, ReadResult.returned.injEq] at h
        obtain ⟨rfl, -, rfl⟩ := h
        obtain ⟨h1, mid, h2⟩ := hsome t w1 hb
        refine ⟨by simpa [List.filter, is_add_history] using h1,
          Effect.term_minibuf_read fmt value (-1) cp hp r :: mid, by simp [h2]⟩
      · intro rest w' h
        simp only [minibuf_vread_completion, hb, ReadResult.returned.injEq] at h
        obtain ⟨rfl, -, rfl⟩ := h
        simpa [List.filter, is_add_history] using hnone w1 hb
      · intro w' h
        simp [minibuf_vread_completion, hb] at h
    | again w1 =>
      rw [hb] at htr
      simp only [LoopExit.world] at htr
      obtain ⟨new2, htr2, hdisp2, hsome2, hnone2, hread2⟩ := ih w1
      have hrun : minibuf_vread_completion M fmt value cp hp empty_err invalid_err
          (r :: input) w
          = minibuf_vread_completion M fmt value cp hp empty_err invalid_err input w1 := by
        simp [minibuf_vread_completion, hb]
      have hf1 : (Effect.term_minibuf_read fmt value (-1) cp hp r :: new1).filter
          is_add_history = [] := by
        simpa [List.filter, is_add_history] using hagain w1 hb
      refine ⟨(Effect.term_minibuf_read fmt value (-1) cp hp r :: new1) ++ new2,
        ?_, ?_, ?_, ?_, ?_⟩
      · rw [hrun, htr2, htr]
        simp
      · intro e he
        rcases List.mem_append.mp he with he | he
        · rcases List.mem_cons.mp he with rfl | he
          · rfl
          · exact hdisp e he
        · exact hdisp2 e he
      · intro t rest w' h
        rw [hrun] at h
        obtain ⟨h1, mid, h2⟩ := hsome2 t rest w' h
        refine ⟨by rw [List.filter_append, hf1, h1]; rfl,
          (Effect.term_minibuf_read fmt value (-1) cp hp r :: new1) ++ mid, by simp [h2]⟩
      · intro rest w' h
        rw [hrun] at h
        rw [List.filter_append, hf1, hnone2 rest w' h]
        rfl
      · intro w' h
        rw [hrun] at h
        rw [List.filter_append, hf1, hread2 w' h]
        rfl

theorem minibuf_vread_completion_cons_again {σ : Type} (M : MinibufExt σ)
    (fmt value : String) (cp hp : Int) (empty_err invalid_err : String)
    (r : Option String) (input : List (Option String)) (w w1 : World σ)
    (hb : minibuf_vread_completion_body M fmt value cp hp empty_err invalid_err r w
      = LoopExit.again w1) :
    minibuf_vread_completion M fmt value cp hp empty_err invalid_err (r :: input) w
      = minibuf_vread_completion M fmt value cp hp empty_err invalid_err input w1 := by
  simp [minibuf_vread_completion, hb]

theorem minibuf_vread_completion_cons_break {σ : Type} (M : MinibufExt σ)
    (fmt value : String) (cp hp : Int) (empty_err invalid_err : String)
    (r : Option String) (input : List (Option String)) (w w1 : World σ) (ms : Option String)
    (hb : minibuf_vread_completion_body M fmt value cp hp empty_err invalid_err r w
      = LoopExit.break_with ms w1) :
    minibuf_vread_completion M fmt value cp hp empty_err invalid_err (r :: input) w
      = ReadResult.returned ms input w1 := by
  simp [minibuf_vread_completion, hb]

theorem minibuf_vread_completion_next_read {σ : Type} (M : MinibufExt σ)
    (fmt value : String) (cp hp : Int) (empty_err invalid_err : String)
    (r : Option String) (rest : List (Option String)) (w : World σ) :
    ∃ tail,
      (minibuf_vread_completion M fmt value cp hp empty_err invalid_err (r :: rest) w).world.trace
        = w.trace ++ Effect.term_minibuf_read fmt value (-1) cp hp r :: tail := by
  obtain ⟨new1, htr, -⟩ :=
    minibuf_vread_completion_body_effects M fmt value cp hp empty_err invalid_err r w
  cases hb : minibuf_vread_completion_body M fmt value cp hp empty_err invalid_err r w with
  | break_with ms w1 =>
    rw [hb] at htr
    exact ⟨new1, by simpa [minibuf_vread_completion, hb, ReadResult.world, LoopExit.world]
      using htr⟩
  | again w1 =>
    rw [hb] at htr
    simp only [LoopExit.world] at htr
    obtain ⟨new2, htr2, -⟩ :=
      minibuf_vread_completion_effects M fmt value cp hp empty_err invalid_err rest w1
    refine ⟨new1 ++ new2, ?_⟩
    rw [minibuf_vread_completion_cons_again M fmt value cp hp empty_err invalid_err r rest w w1
      hb, htr2, htr]
    simp

/-- C11: at every attempt of the loop (after any submissions `pre` that were all
rejected), a read that reports an interrupt makes `minibuf_vread_completion`
return `NULL`, and adds to the trace the read itself and one call of
`keyboard_quit`, nothing else: no `add_history_element`, no `completion_try`,
no `minibuf_test_in_completions`. -/
theorem minibuf_vread_completion_cancelled {σ : Type} (M : MinibufExt σ)
    (fmt value : String) (cp hp : Int) (empty_err invalid_err : String)
    (pre rest : List (Option String)) (w w' : World σ)
    (hpre : minibuf_vread_completion M fmt value cp hp empty_err invalid_err pre w
      = ReadResult.reading w') :
    ∃ w'' : World σ,
      minibuf_vread_completion M fmt value cp hp empty_err invalid_err
          (pre ++ none :: rest) w
        = ReadResult.returned none rest w'' ∧
      w''.trace = w'.trace ++
        [Effect.term_minibuf_read fmt value (-1) cp hp none, Effect.keyboard_quit] := by
  refine ⟨extern_call M Effect.keyboard_quit
    (extern_call M (Effect.term_minibuf_read fmt value (-1) cp hp none) w'), ?_, ?_⟩
  · rw [minibuf_vread_completion_append M fmt value cp hp empty_err invalid_err pre _ w w' hpre]
    simp [minibuf_vread_completion, minibuf_vread_completion_body]
  · simp [extern_call]

/-- C11, on the submission `zzz` (rejected) followed by an interrupt, with a
history supplied. -/
theorem minibuf_vread_completion_cancelled_witness :
    ∃ w'' : World Unit,
      minibuf_vread_completion sample_minibuf "M-x " "" 0 5
          "No function name given" "Undefined function name"
          ([some "zzz"] ++ none :: [some "find-file"]) ⟨(), []⟩
        = ReadResult.returned none [some "find-file"] w'' ∧
      w''.trace =
        [Effect.term_minibuf_read "M-x " "" (-1) 0 5 (some "zzz"),
         Effect.completion_try 0 "zzz",
         Effect.minibuf_test_in_completions "zzz" 0,
         Effect.minibuf_vwrite "Undefined function name" ["zzz"], Effect.ding,
         Effect.waitkey] ++
        [Effect.term_minibuf_read "M-x " "" (-1) 0 5 none, Effect.keyboard_quit] :=
  minibuf_vread_completion_cancelled sample_minibuf "M-x " "" 0 5
    "No function name given" "Undefined function name" [some "zzz"] [some "find-file"]
    ⟨(), []⟩
    ⟨(), [Effect.term_minibuf_read "M-x " "" (-1) 0 5 (some "zzz"),
          Effect.completion_try 0 "zzz",
          Effect.minibuf_test_in_completions "zzz" 0,
          Effect.minibuf_vwrite "Undefined function name" ["zzz"], Effect.ding,
          Effect.waitkey]⟩
    (by simp [minibuf_vread_completion, minibuf_vread_completion_body, minibuf_error,
          minibuf_vwrite, extern_call, sample_minibuf, COMPLETION_NOTMATCHED,
          COMPLETION_MATCHED, COMPLETION_NONUNIQUE])

/-- C12 fails on the initial value `init` and the submissions `zzz` (rejected),
`find-file`: the read that follows the rejection is made with `init` again, not
with `zzz`. -/
theorem minibuf_vread_completion_value_counterexample :
    minibuf_vread_completion sample_minibuf "M-x " "init" 0 5
        "No function name given" "Undefined function name"
        [some "zzz", some "find-file"] ⟨(), []⟩ =
      ReadResult.returned (some "find-file") []
        ⟨(), [Effect.term_minibuf_read "M-x " "init" (-1) 0 5 (some "zzz"),
              Effect.completion_try 0 "zzz",
              Effect.minibuf_test_in_completions "zzz" 0,
              Effect.minibuf_vwrite "Undefined function name" ["zzz"], Effect.ding,
              Effect.waitkey,
              Effect.term_minibuf_read "M-x " "init" (-1) 0 5 (some "find-file"),
              Effect.completion_try 0 "find-file",
              Effect.minibuf_test_in_completions "find-file" 0,
              Effect.add_history_element 5 "find-file",
              Effect.term_minibuf_write ""]⟩ := by
  simp [minibuf_vread_completion, minibuf_vread_completion_body, minibuf_error,
    minibuf_vwrite, minibuf_clear, extern_call, sample_minibuf, COMPLETION_NOTMATCHED,
    COMPLETION_MATCHED, COMPLETION_NONUNIQUE, LUA_REFNIL]

/-- C12, amended: every rejection re-enters the read with the initial value the
caller gave: when the pass of the loop on the submission `ms` ends in a
rejection, the loop starts over, and its next call of `term_minibuf_read` is
made with the same prompt and the same `value` as the first one, whatever `ms`
was. -/
theorem minibuf_vread_completion_rejection_rereads_value {σ : Type} (M : MinibufExt σ)
    (fmt value : String) (cp hp : Int) (empty_err invalid_err : String)
    (ms : String) (r : Option String) (rest : List (Option String)) (w w1 : World σ)
    (hrej : minibuf_vread_completion_body M fmt value cp hp empty_err invalid_err (some ms) w
      = LoopExit.again w1) :
    minibuf_vread_completion M fmt value cp hp empty_err invalid_err (some ms :: r :: rest) w
      = minibuf_vread_completion M fmt value cp hp empty_err invalid_err (r :: rest) w1 ∧
    ∃ tail,
      (minibuf_vread_completion M fmt value cp hp empty_err invalid_err
          (some ms :: r :: rest) w).world.trace
        = w1.trace ++ Effect.term_minibuf_read fmt value (-1) cp hp r :: tail := by
  have hrun := minibuf_vread_completion_cons_again M fmt value cp hp empty_err invalid_err
    (some ms) (r :: rest) w w1 hrej
  refine ⟨hrun, ?_⟩
  rw [hrun]
  exact minibuf_vread_completion_next_read M fmt value cp hp empty_err invalid_err r rest w1

/-- C12 amended, on the initial value `init` and the submissions `zzz`,
`find-file`. -/
theorem minibuf_vread_completion_rejection_rereads_value_witness :
    ∃ tail,
      (minibuf_vread_completion sample_minibuf "M-x " "init" 0 5
          "No function name given" "Undefined function name"
          [some "zzz", some "find-file"] ⟨(), []⟩).world.trace
        = [Effect.term_minibuf_read "M-x " "init" (-1) 0 5 (some "zzz"),
           Effect.completion_try 0 "zzz",
           Effect.minibuf_test_in_completions "zzz" 0,
           Effect.minibuf_vwrite "Undefined function name" ["zzz"], Effect.ding,
           Effect.waitkey] ++
          Effect.term_minibuf_read "M-x " "init" (-1) 0 5 (some "find-file") :: tail :=
  (minibuf_vread_completion_rejection_rereads_value sample_minibuf "M-x " "init" 0 5
    "No function name given" "Undefined function name" "zzz" (some "find-file") []
    ⟨(), []⟩
    ⟨(), [Effect.term_minibuf_read "M-x " "init" (-1) 0 5 (some "zzz"),
          Effect.completion_try 0 "zzz",
          Effect.minibuf_test_in_completions "zzz" 0,
          Effect.minibuf_vwrite "Undefined function name" ["zzz"], Effect.ding,
          Effect.waitkey]⟩
    (by simp [minibuf_vread_completion_body, minibuf_error,
          minibuf_vwrite, extern_call, sample_minibuf, COMPLETION_NOTMATCHED,
          COMPLETION_MATCHED, COMPLETION_NONUNIQUE])).2

/-- C13: when the acceptance test is false for the text `t` that the completion
block hands on (the submitted text, possibly completed), the loop does not
return: it adds to the trace the test, the invalid-input error formatted with
`t` (its write and its `ding`) and the wait, no `add_history_element`, and
starts over, so that its next effect is a new read. -/
theorem minibuf_vread_completion_rejected {σ : Type} (M : MinibufExt σ)
    (fmt value : String) (cp hp : Int) (empty_err invalid_err : String)
    (ms : String) (hne : ms ≠ "") (input : List (Option String)) (w : World σ)
    (t : String) (w3 : World σ)
    (hstep : completion_step M cp ms
      (extern_call M (Effect.term_minibuf_read fmt value (-1) cp hp (some ms)) w) = (t, w3))
    (hrej : M.minibuf_test_in_completions t cp w3.st = false) :
    ∃ w' : World σ,
      minibuf_vread_completion M fmt value cp hp empty_err invalid_err (some ms :: input) w
        = minibuf_vread_completion M fmt value cp hp empty_err invalid_err input w' ∧
      w'.trace = w3.trace ++
        [Effect.minibuf_test_in_completions t cp, Effect.minibuf_vwrite invalid_err [t],
         Effect.ding, Effect.waitkey] ∧
      ∀ r rest, input = r :: rest → ∃ tail,
        (minibuf_vread_completion M fmt value cp hp empty_err invalid_err input w').world.trace
          = w'.trace ++ Effect.term_minibuf_read fmt value (-1) cp hp r :: tail := by
  have hb := minibuf_vread_completion_body_some M fmt value cp hp empty_err invalid_err ms hne
    w t w3 hstep
  rw [if_neg (by simp [hrej])] at hb
  refine ⟨_, minibuf_vread_completion_cons_again M fmt value cp hp empty_err invalid_err
    (some ms) input w _ hb, by simp [minibuf_error, minibuf_vwrite, extern_call], ?_⟩
  intro r rest hin
  subst hin
  exact minibuf_vread_completion_next_read M fmt value cp hp empty_err invalid_err r rest _

/-- C13, on the submissions `zzz` (not acceptable), `find-file`. -/
theorem minibuf_vread_completion_rejected_witness :
    ∃ w' : World Unit,
      minibuf_vread_completion sample_minibuf "M-x " "" 0 5
          "No function name given" "Undefined function name"
          [some "zzz", some "find-file"] ⟨(), []⟩
        = minibuf_vread_completion sample_minibuf "M-x " "" 0 5
          "No function name given" "Undefined function name" [some "find-file"] w' ∧
      w'.trace =
        [Effect.term_minibuf_read "M-x " "" (-1) 0 5 (some "zzz"),
         Effect.completion_try 0 "zzz"] ++
        [Effect.minibuf_test_in_completions "zzz" 0,
         Effect.minibuf_vwrite "Undefined function name" ["zzz"],
         Effect.ding, Effect.waitkey] := by
  obtain ⟨w', h1, h2, -⟩ := minibuf_vread_completion_rejected sample_minibuf "M-x " "" 0 5
    "No function name given" "Undefined function name" "zzz" (by decide)
    [some "find-file"] ⟨(), []⟩ "zzz"
    ⟨(), [Effect.term_minibuf_read "M-x " "" (-1) 0 5 (some "zzz"),
          Effect.completion_try 0 "zzz"]⟩
    (by simp [completion_step, extern_call, sample_minibuf, COMPLETION_NOTMATCHED,
          COMPLETION_MATCHED, COMPLETION_NONUNIQUE])
    (by simp [sample_minibuf])
  exact ⟨w', h1, h2⟩

/-- C14 fails on the candidates `find`, `find-file` and the submission `find`:
`completion_try` reports `NONUNIQUE`, the candidate list is shown, and `find`,
being a candidate itself, is accepted, appended to the history and returned. -/
theorem minibuf_vread_completion_nonunique_counterexample :
    (spec_minibuf ["find", "find-file"]).completion_try 0 "find" "" = COMPLETION_NONUNIQUE ∧
    minibuf_vread_completion (spec_minibuf ["find", "find-file"]) "M-x " "" 0 5
        "No function name given" "Undefined function name" [some "find"] ⟨"", []⟩ =
      ReadResult.returned (some "find") []
        ⟨"find", [Effect.term_minibuf_read "M-x " "" (-1) 0 5 (some "find"),
                  Effect.completion_try 0 "find",
                  Effect.popup_completion 0,
                  Effect.minibuf_test_in_completions "find" 0,
                  Effect.add_history_element 5 "find",
                  Effect.term_minibuf_write ""]⟩ := by
  have h1 : try_complete ["find", "find-file"] "find" = (COMPLETION_NONUNIQUE, "find") := by
    decide
  refine ⟨by simp [spec_minibuf, h1], ?_⟩
  simp [minibuf_vread_completion, minibuf_vread_completion_body, minibuf_clear,
    extern_call, spec_minibuf, h1, COMPLETION_NOTMATCHED,
    COMPLETION_MATCHED, COMPLETION_NONUNIQUE, LUA_REFNIL]

/-- C14, amended: when `completion_try` reports `NONUNIQUE` for the submitted
text, the loop shows the candidate list (`popup_completion`), leaves the text
unaltered, and goes on to the acceptance test with it. If the test rejects the
text, the loop emits the invalid-input error, waits and starts over, with no
history append. If the test accepts it, the text is appended to the history
(when one is supplied) and returned. -/
theorem minibuf_vread_completion_nonunique {σ : Type} (M : MinibufExt σ)
    (fmt value : String) (cp hp : Int) (empty_err invalid_err : String)
    (ms : String) (hne : ms ≠ "") (input : List (Option String)) (w : World σ)
    (hcomp : M.completion_try cp ms
      (extern_call M (Effect.term_minibuf_read fmt value (-1) cp hp (some ms)) w).st
        = COMPLETION_NONUNIQUE) :
    completion_step M cp ms
        (extern_call M (Effect.term_minibuf_read fmt value (-1) cp hp (some ms)) w)
      = (ms, extern_call M (Effect.popup_completion cp)
          (extern_call M (Effect.completion_try cp ms)
            (extern_call M (Effect.term_minibuf_read fmt value (-1) cp hp (some ms)) w))) ∧
    (M.minibuf_test_in_completions ms cp
        (extern_call M (Effect.popup_completion cp)
          (extern_call M (Effect.completion_try cp ms)
            (extern_call M (Effect.term_minibuf_read fmt value (-1) cp hp (some ms)) w))).st
        = false →
      ∃ w' : World σ,
        minibuf_vread_completion M fmt value cp hp empty_err invalid_err (some ms :: input) w
          = minibuf_vread_completion M fmt value cp hp empty_err invalid_err input w' ∧
        w'.trace = w.trace ++
          [Effect.term_minibuf_read fmt value (-1) cp hp (some ms),
           Effect.completion_try cp ms, Effect.popup_completion cp,
           Effect.minibuf_test_in_completions ms cp,
           Effect.minibuf_vwrite invalid_err [ms], Effect.ding, Effect.waitkey]) ∧
    (M.minibuf_test_in_completions ms cp
        (extern_call M (Effect.popup_completion cp)
          (extern_call M (Effect.completion_try cp ms)
            (extern_call M (Effect.term_minibuf_read fmt value (-1) cp hp (some ms)) w))).st
        = true →
      ∃ w' : World σ,
        minibuf_vread_completion M fmt value cp hp empty_err invalid_err (some ms :: input) w
          = ReadResult.returned (some ms) input w' ∧
        w'.trace = w.trace ++
          [Effect.term_minibuf_read fmt value (-1) cp hp (some ms),
           Effect.completion_try cp ms, Effect.popup_completion cp,
           Effect.minibuf_test_in_completions ms cp]
          ++ (if hp ≠ LUA_REFNIL then [Effect.add_history_element hp ms] else [])
          ++ [Effect.term_minibuf_write ""]) := by
  have hne2 : COMPLETION_NONUNIQUE ≠ COMPLETION_MATCHED := by decide
  have hstep : completion_step M cp ms
        (extern_call M (Effect.term_minibuf_read fmt value (-1) cp hp (some ms)) w)
      = (ms, extern_call M (Effect.popup_completion cp)
          (extern_call M (Effect.completion_try cp ms)
            (extern_call M (Effect.term_minibuf_read fmt value (-1) cp hp (some ms)) w))) := by
    simp only [completion_step, hcomp, if_neg hne2, if_true]
  have hb := minibuf_vread_completion_body_some M fmt value cp hp empty_err invalid_err ms hne
    w _ _ hstep
  refine ⟨hstep, ?_, ?_⟩
  · intro hrej
    rw [if_neg (by simp [hrej])] at hb
    exact ⟨_, minibuf_vread_completion_cons_again M fmt value cp hp empty_err invalid_err
      (some ms) input w _ hb, by simp [minibuf_error, minibuf_vwrite, extern_call]⟩
  · intro hacc
    rw [if_pos hacc] at hb
    refine ⟨_, minibuf_vread_completion_cons_break M fmt value cp hp empty_err invalid_err
      (some ms) input w _ (some ms) hb, ?_⟩
    by_cases hhp : hp ≠ LUA_REFNIL
    · simp [minibuf_clear, extern_call, hhp]
    · simp [minibuf_clear, extern_call, hhp]

/-- C14 amended, on the candidates `find`, `find-file` and the submission
`find`. -/
theorem minibuf_vread_completion_nonunique_witness :
    completion_step (spec_minibuf ["find", "find-file"]) 0 "find"
        (extern_call (spec_minibuf ["find", "find-file"])
          (Effect.term_minibuf_read "M-x " "" (-1) 0 5 (some "find")) ⟨"", []⟩)
      = ("find", extern_call (spec_minibuf ["find", "find-file"]) (Effect.popup_completion 0)
          (extern_call (spec_minibuf ["find", "find-file"]) (Effect.completion_try 0 "find")
            (extern_call (spec_minibuf ["find", "find-file"])
              (Effect.term_minibuf_read "M-x " "" (-1) 0 5 (some "find")) ⟨"", []⟩))) :=
  (minibuf_vread_completion_nonunique (spec_minibuf ["find", "find-file"]) "M-x " "" 0 5
    "No function name given" "Undefined function name" "find" (by decide) [] ⟨"", []⟩
    (by
      have h1 : try_complete ["find", "find-file"] "find" = (COMPLETION_NONUNIQUE, "find") := by
        decide
      simp [spec_minibuf, h1])).1

/-- C15: for a non-empty submission `ms`, the text that the loop tests and, when
the test accepts it, returns, is `get_completion_match (cp)` when
`completion_try` reports `MATCHED`, and `ms` itself when it reports
`NOTMATCHED`. -/
theorem minibuf_vread_completion_tested_text {σ : Type} (M : MinibufExt σ)
    (fmt value : String) (cp hp : Int) (empty_err invalid_err : String)
    (ms : String) (hne : ms ≠ "") (input : List (Option String)) (w : World σ) :
    (M.completion_try cp ms
        (extern_call M (Effect.term_minibuf_read fmt value (-1) cp hp (some ms)) w).st
        = COMPLETION_MATCHED →
      ∀ (m : String) (w2 : World σ),
        w2 = extern_call M (Effect.completion_try cp ms)
          (extern_call M (Effect.term_minibuf_read fmt value (-1) cp hp (some ms)) w) →
        m = M.get_completion_match cp w2.st →
        minibuf_vread_completion M fmt value cp hp empty_err invalid_err (some ms :: input) w =
          if M.minibuf_test_in_completions m cp w2.st = true then
            ReadResult.returned (some m) input
              (minibuf_clear M
                (if hp ≠ LUA_REFNIL then
                  extern_call M (Effect.add_history_element hp m)
                    (extern_call M (Effect.minibuf_test_in_completions m cp) w2)
                else extern_call M (Effect.minibuf_test_in_completions m cp) w2))
          else
            minibuf_vread_completion M fmt value cp hp empty_err invalid_err input
              (extern_call M Effect.waitkey
                (minibuf_error M invalid_err [m]
                  (extern_call M (Effect.minibuf_test_in_completions m cp) w2)))) ∧
    (M.completion_try cp ms
        (extern_call M (Effect.term_minibuf_read fmt value (-1) cp hp (some ms)) w).st
        = COMPLETION_NOTMATCHED →
      ∀ (w2 : World σ),
        w2 = extern_call M (Effect.completion_try cp ms)
          (extern_call M (Effect.term_minibuf_read fmt value (-1) cp hp (some ms)) w) →
        minibuf_vread_completion M fmt value cp hp empty_err invalid_err (some ms :: input) w =
          if M.minibuf_test_in_completions ms cp w2.st = true then
            ReadResult.returned (some ms) input
              (minibuf_clear M
                (if hp ≠ LUA_REFNIL then
                  extern_call M (Effect.add_history_element hp ms)
                    (extern_call M (Effect.minibuf_test_in_completions ms cp) w2)
                else extern_call M (Effect.minibuf_test_in_completions ms cp) w2))
          else
            minibuf_vread_completion M fmt value cp hp empty_err invalid_err input
              (extern_call M Effect.waitkey
                (minibuf_error M invalid_err [ms]
                  (extern_call M (Effect.minibuf_test_in_completions ms cp) w2)))) := by
  constructor
  · intro hcomp m w2 hw2 hm
    have hstep : completion_step M cp ms
        (extern_call M (Effect.term_minibuf_read fmt value (-1) cp hp (some ms)) w)
        = (m, w2) := by
      simp only [completion_step, hcomp, if_true, hm, hw2]
    have hb := minibuf_vread_completion_body_some M fmt value cp hp empty_err invalid_err ms
      hne w m w2 hstep
    simp only [minibuf_vread_completion, hb]
    split_ifs <;> rfl
  · intro hcomp w2 hw2
    have h1 : COMPLETION_NOTMATCHED ≠ COMPLETION_MATCHED := by decide
    have h2 : COMPLETION_NOTMATCHED ≠ COMPLETION_NONUNIQUE := by decide
    have hstep : completion_step M cp ms
        (extern_call M (Effect.term_minibuf_read fmt value (-1) cp hp (some ms)) w)
        = (ms, w2) := by
      simp only [completion_step, hcomp, if_neg h1, if_neg h2, hw2]
    have hb := minibuf_vread_completion_body_some M fmt value cp hp empty_err invalid_err ms
      hne w ms w2 hstep
    simp only [minibuf_vread_completion, hb]
    split_ifs <;> rfl

/-- C15, on the single candidate `find-file` and the submission `find-`, which
`completion_try` completes: the text tested, recorded and returned is
`find-file`. -/
theorem minibuf_vread_completion_tested_text_witness :
    minibuf_vread_completion (spec_minibuf ["find-file"]) "M-x " "" 0 5
        "No function name given" "Undefined function name" [some "find-"] ⟨"", []⟩ =
      ReadResult.returned (some "find-file") []
        ⟨"find-file", [Effect.term_minibuf_read "M-x " "" (-1) 0 5 (some "find-"),
                       Effect.completion_try 0 "find-",
                       Effect.minibuf_test_in_completions "find-file" 0,
                       Effect.add_history_element 5 "find-file",
                       Effect.term_minibuf_write ""]⟩ := by
  have h1 : try_complete ["find-file"] "find-" = (COMPLETION_MATCHED, "find-file") := by
    decide
  have h := (minibuf_vread_completion_tested_text (spec_minibuf ["find-file"]) "M-x " "" 0 5
    "No function name given" "Undefined function name" "find-" (by decide) [] ⟨"", []⟩).1
    (by simp [spec_minibuf, h1]) "find-file"
    ⟨"find-file", [Effect.term_minibuf_read "M-x " "" (-1) 0 5 (some "find-"),
                   Effect.completion_try 0 "find-"]⟩
    (by simp [extern_call, spec_minibuf, h1]) (by simp [spec_minibuf])
  rw [h]
  simp [spec_minibuf, minibuf_clear, extern_call, LUA_REFNIL]

/-- C16: over a whole call of `minibuf_vread_completion`, the calls of
`add_history_element` among the effects it adds are: the single call
`add_history_element (hp, t)` when the call returns the text `t` and `hp` is not
`LUA_REFNIL`; none when it returns `t` and `hp` is `LUA_REFNIL`; none when it
returns `NULL` or has not returned. When it returns a text, the last effect is
the clearing of the minibuffer. -/
theorem minibuf_vread_completion_history {σ : Type} (M : MinibufExt σ)
    (fmt value : String) (cp hp : Int) (empty_err invalid_err : String)
    (input : List (Option String)) (w : World σ) :
    ∃ new,
      (minibuf_vread_completion M fmt value cp hp empty_err invalid_err input w).world.trace
        = w.trace ++ new ∧
      (∀ t rest w', minibuf_vread_completion M fmt value cp hp empty_err invalid_err input w
          = ReadResult.returned (some t) rest w' →
        new.filter is_add_history
          = (if hp ≠ LUA_REFNIL then [Effect.add_history_element hp t] else []) ∧
        ∃ mid, new = mid ++ [Effect.term_minibuf_write ""]) ∧
      (∀ rest w', minibuf_vread_completion M fmt value cp hp empty_err invalid_err input w
          = ReadResult.returned none rest w' → new.filter is_add_history = []) ∧
      (∀ w', minibuf_vread_completion M fmt value cp hp empty_err invalid_err input w
          = ReadResult.reading w' → new.filter is_add_history = []) := by
  obtain ⟨new, h1, -, h3, h4, h5⟩ :=
    minibuf_vread_completion_effects M fmt value cp hp empty_err invalid_err input w
  exact ⟨new, h1, h3, h4, h5⟩

/-- C16, on the submissions `zzz` (rejected), `find-file` (accepted), with the
history `5`: one append, of `find-file`. -/
theorem minibuf_vread_completion_history_witness :
    ∃ new,
      (minibuf_vread_completion sample_minibuf "M-x " "" 0 5
        "No function name given" "Undefined function name"
        [some "zzz", some "find-file"] ⟨(), []⟩).world.trace = [] ++ new ∧
      new.filter is_add_history = [Effect.add_history_element 5 "find-file"] := by
  obtain ⟨new, h1, h2, -⟩ := minibuf_vread_completion_history sample_minibuf "M-x " "" 0 5
    "No function name given" "Undefined function name"
    [some "zzz", some "find-file"] ⟨(), []⟩
  refine ⟨new, h1, ?_⟩
  have h := (h2 "find-file" []
    ⟨(), [Effect.term_minibuf_read "M-x " "" (-1) 0 5 (some "zzz"),
          Effect.completion_try 0 "zzz",
          Effect.minibuf_test_in_completions "zzz" 0,
          Effect.minibuf_vwrite "Undefined function name" ["zzz"], Effect.ding,
          Effect.waitkey,
          Effect.term_minibuf_read "M-x " "" (-1) 0 5 (some "find-file"),
          Effect.completion_try 0 "find-file",
          Effect.minibuf_test_in_completions "find-file" 0,
          Effect.add_history_element 5 "find-file",
          Effect.term_minibuf_write ""]⟩
    (by simp [minibuf_vread_completion, minibuf_vread_completion_body, minibuf_error,
          minibuf_vwrite, minibuf_clear, extern_call, sample_minibuf, COMPLETION_NOTMATCHED,
          COMPLETION_MATCHED, COMPLETION_NONUNIQUE, LUA_REFNIL])).1
  simpa [LUA_REFNIL] using h

theorem minibuf_vread_completion_body_accepts {σ : Type} (M : MinibufExt σ)
    (fmt value : String) (cp hp : Int) (empty_err invalid_err : String)
    (hmatch : ∀ s st, s ≠ "" → M.completion_try cp s st = COMPLETION_MATCHED →
      M.get_completion_match cp (M.step (Effect.completion_try cp s) st) ≠ "")
    (r : Option String) (w w' : World σ) (t : String)
    (hb : minibuf_vread_completion_body M fmt value cp hp empty_err invalid_err r w
      = LoopExit.break_with (some t) w') :
    t ≠ "" ∧ ∃ st3, M.minibuf_test_in_completions t cp st3 = true ∧
      w'.st = M.step (Effect.term_minibuf_write "")
        (if hp ≠ LUA_REFNIL then
          M.step (Effect.add_history_element hp t)
            (M.step (Effect.minibuf_test_in_completions t cp) st3)
        else M.step (Effect.minibuf_test_in_completions t cp) st3) := by
  cases r with
  | none => simp [minibuf_vread_completion_body] at hb
  | some ms =>
    by_cases hne : ms = ""
    · simp [minibuf_vread_completion_body, hne] at hb
    · rcases hstep : completion_step M cp ms
        (extern_call M (Effect.term_minibuf_read fmt value (-1) cp hp (some ms)) w)
        with ⟨t1, w3⟩
      rw [minibuf_vread_completion_body_some M fmt value cp hp empty_err invalid_err ms hne w
        t1 w3 hstep] at hb
      by_cases hacc : M.minibuf_test_in_completions t1 cp w3.st = true
      · rw [if_pos hacc] at hb
        simp only [LoopExit.break_with.injEq, Option.some.injEq] at hb
        obtain ⟨rfl, rfl⟩ := hb
        refine ⟨?_, w3.st, hacc, ?_⟩
        · simp only [completion_step, Prod.mk.injEq] at hstep
          obtain ⟨h1, -⟩ := hstep
          rw [← h1]
          split_ifs with hc
          · exact hmatch ms _ hne hc
          · exact hne
        · by_cases hhp : hp ≠ LUA_REFNIL
          · simp [minibuf_clear, extern_call, hhp]
          · simp [minibuf_clear, extern_call, hhp]
      · rw [if_neg hacc] at hb
        cases hb

/-- C19: provided `completion_try` keeps its contract that the match it leaves
for a non-empty search text is not empty, every text `t` that
`minibuf_vread_completion` returns is non-empty and passed the acceptance test
`minibuf_test_in_completions (t, cp)` in the state `st3` from which the final
steps (the test, the history append when a history is supplied, the clearing of
the minibuffer) lead to the state at the return. -/
theorem minibuf_vread_completion_postcondition {σ : Type} (M : MinibufExt σ)
    (fmt value : String) (cp hp : Int) (empty_err invalid_err : String)
    (hmatch : ∀ s st, s ≠ "" → M.completion_try cp s st = COMPLETION_MATCHED →
      M.get_completion_match cp (M.step (Effect.completion_try cp s) st) ≠ "")
    (input rest : List (Option String)) (w w' : World σ) (t : String)
    (hret : minibuf_vread_completion M fmt value cp hp empty_err invalid_err input w
      = ReadResult.returned (some t) rest w') :
    t ≠ "" ∧ ∃ st3, M.minibuf_test_in_completions t cp st3 = true ∧
      w'.st = M.step (Effect.term_minibuf_write "")
        (if hp ≠ LUA_REFNIL then
          M.step (Effect.add_history_element hp t)
            (M.step (Effect.minibuf_test_in_completions t cp) st3)
        else M.step (Effect.minibuf_test_in_completions t cp) st3) := by
  induction input generalizing w with
  | nil => simp [minibuf_vread_completion] at hret
  | cons r input ih =>
    cases hb : minibuf_vread_completion_body M fmt value cp hp empty_err invalid_err r w with
    | break_with ms w1 =>
      rw [minibuf_vread_completion_cons_break M fmt value cp hp empty_err invalid_err r input
        w w1 ms hb] at hret
      simp only [ReadResult.returned.injEq] at hret
      obtain ⟨rfl, -, rfl⟩ := hret
      exact minibuf_vread_completion_body_accepts M fmt value cp hp empty_err invalid_err
        hmatch r w w1 t hb
    | again w1 =>
      rw [minibuf_vread_completion_cons_again M fmt value cp hp empty_err invalid_err r input
        w w1 hb] at hret
      exact ih w1 hret

theorem try_complete_match_nonempty (candidates : List String) (s : String) (hs : s ≠ "")
    (h : (try_complete candidates s).1 = COMPLETION_MATCHED) :
    (try_complete candidates s).2 ≠ "" := by
  unfold try_complete at h ⊢
  have hsd : s.data ≠ [] := fun h0 => hs (String.ext h0)
  have hmem : ∀ c ∈ (candidates.filter (fun c => s.data.isPrefixOf c.data)).dedup,
      c ≠ "" := by
    intro c hc hce
    rw [List.mem_dedup, List.mem_filter] at hc
    have hpre : s.data <+: c.data := List.isPrefixOf_iff_prefix.mp hc.2
    rw [hce] at hpre
    exact hsd (List.prefix_nil.mp hpre)
  generalize (candidates.filter (fun c => s.data.isPrefixOf c.data)).dedup = l at h hmem ⊢
  match l with
  | [] => simp [COMPLETION_NOTMATCHED, COMPLETION_MATCHED] at h
  | [c] => exact hmem c (List.mem_singleton.mpr rfl)
  | c :: d :: ds =>
    simp only at h ⊢
    split_ifs at h ⊢ with hlt
    · intro h0
      have h1 := congrArg String.data h0
      simp only at h1
      rw [h1] at hlt
      simp at hlt
    · simp [COMPLETION_NONUNIQUE, COMPLETION_MATCHED] at h

/-- C19, on the single candidate `find-file`: the submissions `zzz` (rejected)
and `find-` (completed to `find-file`) end with `find-file` returned. -/
theorem minibuf_vread_completion_postcondition_witness :
    ("find-file" : String) ≠ "" ∧ ∃ st3,
      (spec_minibuf ["find-file"]).minibuf_test_in_completions "find-file" 0 st3 = true ∧
      ("find-file" : String) = (spec_minibuf ["find-file"]).step (Effect.term_minibuf_write "")
        (if (5 : Int) ≠ LUA_REFNIL then
          (spec_minibuf ["find-file"]).step (Effect.add_history_element 5 "find-file")
            ((spec_minibuf ["find-file"]).step
              (Effect.minibuf_test_in_completions "find-file" 0) st3)
        else (spec_minibuf ["find-file"]).step
          (Effect.minibuf_test_in_completions "find-file" 0) st3) :=
  minibuf_vread_completion_postcondition (spec_minibuf ["find-file"]) "M-x " "" 0 5
    "No function name given" "Undefined function name"
    (fun s _ hs h => try_complete_match_nonempty ["find-file"] s hs h)
    [some "zzz", some "find-"] []
    ⟨"", []⟩
    ⟨"find-file", [Effect.term_minibuf_read "M-x " "" (-1) 0 5 (some "zzz"),
          Effect.completion_try 0 "zzz",
          Effect.minibuf_test_in_completions "zzz" 0,
          Effect.minibuf_vwrite "Undefined function name" ["zzz"], Effect.ding,
          Effect.waitkey,
          Effect.term_minibuf_read "M-x " "" (-1) 0 5 (some "find-"),
          Effect.completion_try 0 "find-",
          Effect.minibuf_test_in_completions "find-file" 0,
          Effect.add_history_element 5 "find-file",
          Effect.term_minibuf_write ""]⟩
    "find-file"
    (by
      have h1 : try_complete ["find-file"] "find-" = (COMPLETION_MATCHED, "find-file") := by
        decide
      have h2 : try_complete ["find-file"] "zzz" = (COMPLETION_NOTMATCHED, "zzz") := by
        decide
      simp [minibuf_vread_completion, minibuf_vread_completion_body, minibuf_error,
        minibuf_vwrite, minibuf_clear, extern_call, spec_minibuf, h1, h2,
        COMPLETION_NOTMATCHED, COMPLETION_MATCHED, COMPLETION_NONUNIQUE, LUA_REFNIL])

/-! ## Reading a function name and executing it: claims C17, C18 and C20 -/

theorem gl_sortedlist_add_perm (l : List String) (s : String) :
    (gl_sortedlist_add l s).Perm (s :: l) := by
  induction l with
  | nil => exact List.Perm.refl _
  | cons x xs ih =>
    simp only [gl_sortedlist_add]
    split_ifs
    · exact List.Perm.refl _
    · exact (List.Perm.cons x ih).trans (List.Perm.swap s x xs)

theorem completion_add_completions {τ : Type} (cp : Int) (name : String)
    (w : World (Editor τ)) :
    ((completion_add cp name w).st.cps cp).completions
      = gl_sortedlist_add (w.st.cps cp).completions name := by
  simp [completion_add]

theorem completion_add_frame {τ : Type} (cp : Int) (name : String) (w : World (Editor τ)) :
    (completion_add cp name w).st.macros = w.st.macros ∧
    (completion_add cp name w).trace = w.trace := ⟨rfl, rfl⟩

theorem add_interactive_perm {τ : Type} (cp : Int) :
    ∀ (tbl : List fentry) (w : World (Editor τ)),
      (((tbl.foldl (fun w1 e => if e.interactive then completion_add cp e.name w1 else w1)
          w).st.cps cp).completions).Perm
        ((tbl.filter (fun e => e.interactive)).map fentry.name
          ++ (w.st.cps cp).completions) ∧
      (tbl.foldl (fun w1 e => if e.interactive then completion_add cp e.name w1 else w1)
          w).st.macros = w.st.macros ∧
      (tbl.foldl (fun w1 e => if e.interactive then completion_add cp e.name w1 else w1)
          w).trace = w.trace := by
  intro tbl
  induction tbl with
  | nil => intro w; exact ⟨List.Perm.refl _, rfl, rfl⟩
  | cons e tbl ih =>
    intro w
    simp only [List.foldl_cons]
    by_cases he : e.interactive = true
    · obtain ⟨h1, h2, h3⟩ := ih (completion_add cp e.name w)
      simp only [he, if_true] at h1 h2 h3 ⊢
      refine ⟨?_, h2, h3⟩
      rw [completion_add_completions] at h1
      simp only [List.filter_cons, he, if_true, List.map_cons, List.cons_append]
      exact h1.trans ((List.Perm.append_left _ (gl_sortedlist_add_perm _ _)).trans
        List.perm_middle)
    · obtain ⟨h1, h2, h3⟩ := ih w
      simp only [he] at h1 h2 h3 ⊢
      refine ⟨?_, h2, h3⟩
      simpa [List.filter_cons, he] using h1

theorem add_macros_perm {τ : Type} (cp : Int) :
    ∀ (l : List (String × Macro)) (w : World (Editor τ)),
      (((l.foldl (fun w1 p => completion_add cp p.1 w1) w).st.cps cp).completions).Perm
        ((w.st.cps cp).completions ++ l.map Prod.fst) ∧
      (l.foldl (fun w1 p => completion_add cp p.1 w1) w).st.macros = w.st.macros ∧
      (l.foldl (fun w1 p => completion_add cp p.1 w1) w).trace = w.trace := by
  intro l
  induction l with
  | nil => intro w; exact ⟨by simp, rfl, rfl⟩
  | cons p l ih =>
    intro w
    simp only [List.foldl_cons]
    obtain ⟨h1, h2, h3⟩ := ih (completion_add cp p.1 w)
    refine ⟨?_, h2, h3⟩
    rw [completion_add_completions] at h1
    simp only [List.map_cons]
    exact h1.trans ((List.Perm.append_right _ (gl_sortedlist_add_perm _ _)).trans
      List.perm_middle.symm)

theorem function_name_completion_spec {τ : Type} (tbl : List fentry) (w : World (Editor τ)) :
    (((function_name_completion tbl w).2.st.cps
        (function_name_completion tbl w).1).completions).Perm
      ((tbl.filter (fun e => e.interactive)).map fentry.name
        ++ w.st.macros.map Prod.fst) ∧
    (function_name_completion tbl w).2.st.macros = w.st.macros ∧
    (function_name_completion tbl w).2.trace = w.trace := by
  simp only [function_name_completion, add_macros_to_list]
  obtain ⟨a1, a2, a3⟩ := add_interactive_perm (completion_new false w).1 tbl
    (completion_new false w).2
  obtain ⟨b1, b2, b3⟩ := add_macros_perm (completion_new false w).1
    (tbl.foldl (fun w1 e => if e.interactive then
        completion_add (completion_new false w).1 e.name w1 else w1)
      (completion_new false w).2).st.macros
    (tbl.foldl (fun w1 e => if e.interactive then
        completion_add (completion_new false w).1 e.name w1 else w1)
      (completion_new false w).2)
  have hnew : (((completion_new false w).2.st.cps (completion_new false w).1).completions)
      = [] := by
    simp [completion_new]
  rw [hnew, List.append_nil] at a1
  refine ⟨?_, ?_, ?_⟩
  · refine b1.trans ?_
    rw [a2]
    exact List.Perm.append_right _ a1
  · rw [b2, a2]; rfl
  · rw [b3, a3]; rfl

/-- C17 fails on the sample table and a macro store holding a macro named
`setq`: `setq` is in the candidate list, as a macro name, although the entry
of the table of that name is not marked interactive. -/
theorem function_name_completion_counterexample :
    (get_fentry sample_table "setq").map (fun e => e.interactive) = some false ∧
    "setq" ∈ ((function_name_completion sample_table (sample_world [("setq", ⟨1⟩)])).2.st.cps
      (function_name_completion sample_table (sample_world [("setq", ⟨1⟩)])).1).completions := by
  constructor <;> decide

/-- C17, amended: the candidate list that `minibuf_read_function_name` builds
is, up to order, the names of the entries of the table marked interactive
followed by the names of the macros of the store. So a name is a candidate
exactly when it is the name of an interactive entry or of a macro (the name of
an entry that is not interactive is there only when a macro or an interactive
entry bears it); a name occurs as many times as it occurs in the two sources
together; on the sample table with a macro named `find-file`, `find-file` is
there twice and `setq` is absent. -/
theorem function_name_completion_candidates {τ : Type} (tbl : List fentry)
    (w : World (Editor τ)) :
    (((function_name_completion tbl w).2.st.cps
        (function_name_completion tbl w).1).completions).Perm
      ((tbl.filter (fun e => e.interactive)).map fentry.name
        ++ w.st.macros.map Prod.fst) ∧
    (∀ n, n ∈ ((function_name_completion tbl w).2.st.cps
        (function_name_completion tbl w).1).completions ↔
      (∃ e ∈ tbl, e.interactive = true ∧ e.name = n) ∨ (∃ mp, (n, mp) ∈ w.st.macros)) ∧
    (∀ n, (((function_name_completion tbl w).2.st.cps
        (function_name_completion tbl w).1).completions).count n =
      ((tbl.filter (fun e => e.interactive)).map fentry.name).count n
        + (w.st.macros.map Prod.fst).count n) ∧
    ((function_name_completion sample_table (sample_world [("find-file", ⟨2⟩)])).2.st.cps
        (function_name_completion sample_table (sample_world [("find-file", ⟨2⟩)])).1).completions
      = ["find-file", "find-file", "forward-char"] := by
  have hperm := (function_name_completion_spec tbl w).1
  refine ⟨hperm, ?_, ?_, by decide⟩
  · intro n
    rw [hperm.mem_iff]
    simp only [List.mem_append, List.mem_map, List.mem_filter, Prod.exists]
    constructor
    · rintro (⟨e, ⟨he, hi⟩, hn⟩ | ⟨a, mp, hmem, ha⟩)
      · exact Or.inl ⟨e, he, hi, hn⟩
      · exact Or.inr ⟨mp, by simpa [← ha] using hmem⟩
    · rintro (⟨e, he, hi, hn⟩ | ⟨mp, hmem⟩)
      · exact Or.inl ⟨e, ⟨he, hi⟩, hn⟩
      · exact Or.inr ⟨n, mp, hmem, rfl⟩
  · intro n
    rw [hperm.count_eq, List.count_append]

theorem same_store_refl {τ : Type} (w : World (Editor τ)) : same_store w w :=
  ⟨rfl, fun _ => rfl⟩

theorem same_store_trans {τ : Type} {w w1 w2 : World (Editor τ)}
    (h1 : same_store w w1) (h2 : same_store w1 w2) : same_store w w2 :=
  ⟨h2.1.trans h1.1, fun c => (h2.2 c).trans (h1.2 c)⟩

theorem same_store_call {τ : Type} (E : EditorExt τ) (e : Effect) (w : World (Editor τ)) :
    same_store w (extern_call (editor_minibuf E) e w) := by
  refine ⟨?_, ?_⟩
  · cases e <;> rfl
  · intro c
    cases e <;> try rfl
    case completion_try cp search =>
      by_cases hc : c = cp
      · subst hc
        simp [extern_call, editor_minibuf]
      · simp [extern_call, editor_minibuf, Function.update_noteq hc]

theorem same_store_completion_step {τ : Type} (E : EditorExt τ) (cp : Int) (ms : String)
    (w1 : World (Editor τ)) :
    same_store w1 (completion_step (editor_minibuf E) cp ms w1).2 := by
  simp only [completion_step]
  split_ifs
  · exact same_store_call E _ w1
  · exact same_store_trans (same_store_call E _ w1) (same_store_call E _ _)
  · exact same_store_call E _ w1

theorem editor_body_frame {τ : Type} (E : EditorExt τ) (fmt value : String) (cp hp : Int)
    (empty_err invalid_err : String) (r : Option String) (w : World (Editor τ)) :
    same_store w
      (minibuf_vread_completion_body (editor_minibuf E) fmt value cp hp empty_err invalid_err
        r w).world ∧
    ∀ t w', minibuf_vread_completion_body (editor_minibuf E) fmt value cp hp empty_err
        invalid_err r w = LoopExit.break_with (some t) w' →
      t ∈ (w.st.cps cp).completions := by
  cases r with
  | none =>
    refine ⟨?_, ?_⟩
    · simp only [minibuf_vread_completion_body, LoopExit.world]
      exact same_store_trans (same_store_call E _ w) (same_store_call E _ _)
    · intro t w' h
      simp [minibuf_vread_completion_body] at h
  | some ms =>
    by_cases hne : ms = ""
    · refine ⟨?_, ?_⟩
      · simp only [minibuf_vread_completion_body, hne, if_true, LoopExit.world, minibuf_error,
          minibuf_vwrite]
        exact same_store_trans (same_store_call E _ w)
          (same_store_trans (same_store_call E _ _) (same_store_call E _ _))
      · intro t w' h
        simp [minibuf_vread_completion_body, hne] at h
    · rcases hstep : completion_step (editor_minibuf E) cp ms
        (extern_call (editor_minibuf E)
          (Effect.term_minibuf_read fmt value (-1) cp hp (some ms)) w) with ⟨t1, w3⟩
      have h3 : same_store w w3 := by
        have := same_store_completion_step E cp ms
          (extern_call (editor_minibuf E)
            (Effect.term_minibuf_read fmt value (-1) cp hp (some ms)) w)
        rw [hstep] at this
        exact same_store_trans (same_store_call E _ w) this
      rw [minibuf_vread_completion_body_some (editor_minibuf E) fmt value cp hp empty_err
        invalid_err ms hne w t1 w3 hstep]
      by_cases hacc : (editor_minibuf E).minibuf_test_in_completions t1 cp w3.st = true
      · rw [if_pos hacc]
        refine ⟨?_, ?_⟩
        · simp only [LoopExit.world, minibuf_clear]
          split_ifs
          · exact same_store_trans h3 (same_store_trans (same_store_call E _ _)
              (same_store_trans (same_store_call E _ _) (same_store_call E _ _)))
          · exact same_store_trans h3 (same_store_trans (same_store_call E _ _)
              (same_store_call E _ _))
        · intro t w' h
          simp only [LoopExit.break_with.injEq, Option.some.injEq] at h
          obtain ⟨rfl, -⟩ := h
          have hmem : t1 ∈ (w3.st.cps cp).completions := by
            simpa [editor_minibuf] using hacc
          rw [h3.2 cp] at hmem
          exact hmem
      · rw [if_neg hacc]
        refine ⟨?_, ?_⟩
        · simp only [LoopExit.world, minibuf_error, minibuf_vwrite]
          exact same_store_trans h3 (same_store_trans (same_store_call E _ _)
            (same_store_trans (same_store_call E _ _)
              (same_store_trans (same_store_call E _ _) (same_store_call E _ _))))
        · intro t w' h
          cases h

theorem editor_read_frame {τ : Type} (E : EditorExt τ) (fmt value : String) (cp hp : Int)
    (empty_err invalid_err : String) :
    ∀ (input : List (Option String)) (w : World (Editor τ)),
      same_store w
        (minibuf_vread_completion (editor_minibuf E) fmt value cp hp empty_err invalid_err
          input w).world ∧
      ∀ t rest w', minibuf_vread_completion (editor_minibuf E) fmt value cp hp empty_err
          invalid_err input w = ReadResult.returned (some t) rest w' →
        t ∈ (w.st.cps cp).completions := by
  intro input
  induction input with
  | nil =>
    intro w
    exact ⟨by simpa [minibuf_vread_completion, ReadResult.world] using same_store_refl w,
      by simp [minibuf_vread_completion]⟩
  | cons r input ih =>
    intro w
    obtain ⟨hf, hacc⟩ := editor_body_frame E fmt value cp hp empty_err invalid_err r w
    cases hb : minibuf_vread_completion_body (editor_minibuf E) fmt value cp hp empty_err
        invalid_err r w with
    | break_with ms w1 =>
      rw [hb] at hf
      rw [minibuf_vread_completion_cons_break (editor_minibuf E) fmt value cp hp empty_err
        invalid_err r input w w1 ms hb]
      refine ⟨hf, ?_⟩
      intro t rest w' h
      simp only [ReadResult.returned.injEq] at h
      obtain ⟨rfl, -, rfl⟩ := h
      exact hacc t w1 hb
    | again w1 =>
      rw [hb] at hf
      simp only [LoopExit.world] at hf
      rw [minibuf_vread_completion_cons_again (editor_minibuf E) fmt value cp hp empty_err
        invalid_err r input w w1 hb]
      obtain ⟨hf2, hacc2⟩ := ih w1
      refine ⟨same_store_trans hf hf2, ?_⟩
      intro t rest w' h
      rw [← hf.2 cp]
      exact hacc2 t rest w' h

theorem minibuf_read_function_name_returned {τ : Type} (E : EditorExt τ) (tbl : List fentry)
    (fh : Int) (fmt : String) (input rest : List (Option String)) (w w1 : World (Editor τ))
    (ms : Option String)
    (hread : minibuf_read_function_name E tbl fh fmt input w = ReadResult.returned ms rest w1) :
    ∃ w0, minibuf_vread_completion (editor_minibuf E) fmt ""
        (function_name_completion tbl w).1 fh "No function name given"
        "Undefined function name `%s'" input (function_name_completion tbl w).2
        = ReadResult.returned ms rest w0 ∧
      w1 = free_completion (function_name_completion tbl w).1 w0 := by
  simp only [minibuf_read_function_name] at hread
  cases hrun : minibuf_vread_completion (editor_minibuf E) fmt ""
      (function_name_completion tbl w).1 fh "No function name given"
      "Undefined function name `%s'" input (function_name_completion tbl w).2 with
  | returned ms0 rest0 w0 =>
    rw [hrun] at hread
    simp only [ReadResult.returned.injEq] at hread
    obtain ⟨rfl, rfl, rfl⟩ := hread
    exact ⟨w0, rfl, rfl⟩
  | reading w0 =>
    rw [hrun] at hread
    cases hread

/-- When the function-name read of `execute-extended-command` yields no value
(at whatever attempt, cancelled or empty), the command returns, with the C
value `false` (which is not `leT`), in the world the read left: what the call
has added to the trace holds no call of a built-in function and no macro
playback. -/
theorem execute_extended_command_no_name {τ : Type} (E : EditorExt τ) (tbl : List fentry)
    (fh : Int) (flag_set_uniarg flag_uniarg_empty : Bool) (uniarg : Int)
    (input rest : List (Option String)) (w w1 : World (Editor τ))
    (hread : minibuf_read_function_name E tbl fh
      (extended_command_prompt flag_set_uniarg flag_uniarg_empty uniarg) input w
        = ReadResult.returned none rest w1) :
    execute_extended_command E tbl fh flag_set_uniarg flag_uniarg_empty uniarg input w
      = CommandResult.returned (le.ref 0) rest w1 ∧
    le.ref 0 ≠ leT ∧
    ∃ new, w1.trace = w.trace ++ new ∧ ∀ e ∈ new, is_dispatch e = false := by
  refine ⟨by simp only [execute_extended_command, hread], by decide, ?_⟩
  obtain ⟨w0, hrun, rfl⟩ := minibuf_read_function_name_returned E tbl fh _ input rest w w1
    none hread
  obtain ⟨new, htr, hdisp, -⟩ := minibuf_vread_completion_effects (editor_minibuf E)
    (extended_command_prompt flag_set_uniarg flag_uniarg_empty uniarg) ""
    (function_name_completion tbl w).1 fh "No function name given"
    "Undefined function name `%s'" input (function_name_completion tbl w).2
  rw [hrun] at htr
  simp only [ReadResult.world] at htr
  refine ⟨new, ?_, hdisp⟩
  rw [← (function_name_completion_spec tbl w).2.2, ← htr]
  rfl

/-- The command on a cancelled read after the count 4 was given. -/
theorem execute_extended_command_no_name_witness :
    (execute_extended_command sample_editor sample_table 5 true false 4 [none]
        (sample_world [])).world.trace
      = [Effect.term_minibuf_read "4 M-x " "" (-1) 1 5 none, Effect.keyboard_quit] ∧
    ∃ w1, execute_extended_command sample_editor sample_table 5 true false 4 [none]
        (sample_world []) = CommandResult.returned (le.ref 0) [] w1 :=
  ⟨by decide,
   _, (execute_extended_command_no_name sample_editor sample_table 5 true false 4 [none] []
      (sample_world [])
      (minibuf_read_function_name sample_editor sample_table 5
        (extended_command_prompt true false 4) [none] (sample_world [])).world rfl).1⟩

theorem editor_get_macro_of_mem {τ : Type} (E : EditorExt τ) (name : String)
    (st : Editor τ) (h : name ∈ st.macros.map Prod.fst) :
    ∃ mp, LispExt.get_macro (editor_lisp E) name st = some mp ∧ (name, mp) ∈ st.macros := by
  simp only [editor_lisp]
  cases hf : st.macros.find? (fun p => decide (p.1 = name)) with
  | none =>
    rw [List.find?_eq_none] at hf
    obtain ⟨p, hp, hn⟩ := List.mem_map.mp h
    exact absurd (by simpa using hn) (by simpa using hf p hp)
  | some p =>
    have h1 : p.1 = name := by simpa using List.find?_some hf
    have h2 : p ∈ st.macros := List.mem_of_find?_eq_some hf
    refine ⟨p.2, rfl, ?_⟩
    rw [← h1]
    exact h2

/-- C20, at a macro store that holds a macro named `setq`: the name is a
candidate (as a macro name), the user submits it, it passes the membership
test, and `execute_function` runs the built-in `setq`, which the table marks
as not interactive. -/
theorem execute_extended_command_runs_noninteractive :
    (get_fentry sample_table "setq").map (fun e => (e.func, e.interactive))
      = some (⟨9⟩, false) ∧
    (execute_extended_command sample_editor sample_table 5 false false 1
        [some "setq"] (sample_world [("setq", ⟨1⟩)])).world.trace =
      [Effect.term_minibuf_read "M-x " "" (-1) 1 5 (some "setq"),
       Effect.completion_try 1 "setq",
       Effect.minibuf_test_in_completions "setq" 1,
       Effect.add_history_element 5 "setq",
       Effect.term_minibuf_write "",
       Effect.func ⟨9⟩ 1 (le.ref LUA_REFNIL)] := by
  constructor <;> decide

/-- When the names of the table are unique and no macro bears the name of a
built-in that is not interactive, `execute-extended-command` passes
to `execute_function` a name that is a member of the candidate list, and what
`execute_function` then runs is either the built-in of an entry marked
interactive, called once with the count, or the playback of a macro of the
store. -/
theorem execute_extended_command_runs_interactive {τ : Type} (E : EditorExt τ)
    (tbl : List fentry) (fh : Int) (flag_set_uniarg flag_uniarg_empty : Bool) (uniarg : Int)
    (input rest : List (Option String)) (w w1 : World (Editor τ)) (name : String)
    (hnodup : (tbl.map fentry.name).Nodup)
    (hdistinct : ∀ e ∈ tbl, e.interactive = false → e.name ∉ w.st.macros.map Prod.fst)
    (hread : minibuf_read_function_name E tbl fh
      (extended_command_prompt flag_set_uniarg flag_uniarg_empty uniarg) input w
        = ReadResult.returned (some name) rest w1) :
    name ∈ ((function_name_completion tbl w).2.st.cps
      (function_name_completion tbl w).1).completions ∧
    ((∃ e ∈ tbl, e.interactive = true ∧ e.name = name ∧
        execute_extended_command E tbl fh flag_set_uniarg flag_uniarg_empty uniarg input w
          = CommandResult.returned (E.apply e.func uniarg (le.ref LUA_REFNIL) w1.st).1 rest
              { st := (E.apply e.func uniarg (le.ref LUA_REFNIL) w1.st).2,
                trace := w1.trace ++ [Effect.func e.func uniarg (le.ref LUA_REFNIL)] }) ∨
     (∃ mp, (name, mp) ∈ w.st.macros ∧
        execute_extended_command E tbl fh flag_set_uniarg flag_uniarg_empty uniarg input w
          = CommandResult.returned leT rest
              { st := E.call_macro mp w1.st,
                trace := w1.trace ++ [Effect.call_macro mp] })) := by
  obtain ⟨w0, hrun, rfl⟩ := minibuf_read_function_name_returned E tbl fh _ input rest w w1
    (some name) hread
  obtain ⟨hframe, hacc⟩ := editor_read_frame E
    (extended_command_prompt flag_set_uniarg flag_uniarg_empty uniarg) ""
    (function_name_completion tbl w).1 fh "No function name given"
    "Undefined function name `%s'" input (function_name_completion tbl w).2
  have hmem := hacc name rest w0 hrun
  rw [hrun] at hframe
  simp only [ReadResult.world] at hframe
  have hdistincts : (free_completion (function_name_completion tbl w).1 w0).st.macros
      = w.st.macros := by
    have h1 : (free_completion (function_name_completion tbl w).1 w0).st.macros
        = w0.st.macros := rfl
    rw [h1, hframe.1, (function_name_completion_spec tbl w).2.1]
  refine ⟨hmem, ?_⟩
  have hcases := ((function_name_completion_spec tbl w).1.mem_iff (a := name)).mp hmem
  have hexec : execute_extended_command E tbl fh flag_set_uniarg flag_uniarg_empty uniarg
      input w = CommandResult.returned
        (execute_function (editor_lisp E) tbl name uniarg
          (free_completion (function_name_completion tbl w).1 w0)).1 rest
        (execute_function (editor_lisp E) tbl name uniarg
          (free_completion (function_name_completion tbl w).1 w0)).2 := by
    simp only [execute_extended_command, hread]
  by_cases hint : ∃ e ∈ tbl, e.interactive = true ∧ e.name = name
  · obtain ⟨e, he, hi, hn⟩ := hint
    left
    refine ⟨e, he, hi, hn, ?_⟩
    rw [hexec]
    have hget : get_fentry tbl name = some e := by
      rw [← hn]
      exact get_fentry_of_mem tbl hnodup e he
    simp [execute_function, get_function, hget, editor_lisp]
  · right
    have hmac : name ∈ w.st.macros.map Prod.fst := by
      rcases List.mem_append.mp hcases with h | h
      · exfalso
        obtain ⟨e, he, hn⟩ := List.mem_map.mp h
        rw [List.mem_filter] at he
        exact hint ⟨e, he.1, by simpa using he.2, hn⟩
      · exact h
    have hnone : get_fentry tbl name = none := by
      rw [get_fentry_eq_none_iff]
      intro e he hn
      by_cases hi : e.interactive = true
      · exact hint ⟨e, he, hi, hn⟩
      · exact hdistinct e he (by simpa using hi) (by rw [hn]; exact hmac)
    obtain ⟨mp, hget, hmp⟩ := editor_get_macro_of_mem E name
      (free_completion (function_name_completion tbl w).1 w0).st (by rw [hdistincts]; exact hmac)
    refine ⟨mp, by rw [← hdistincts]; exact hmp, ?_⟩
    have hx : execute_function (editor_lisp E) tbl name uniarg
        (free_completion (function_name_completion tbl w).1 w0)
        = (leT,
           { st := LispExt.call_macro (editor_lisp E) mp
               (free_completion (function_name_completion tbl w).1 w0).st,
             trace := (free_completion (function_name_completion tbl w).1 w0).trace
               ++ [Effect.call_macro mp] }) := by
      simp only [execute_function, get_function, hnone, hget]
    rw [hexec, hx]
    rfl

/-- The command on the sample table and a macro store holding `my-macro`: the
submission `find-` is completed to `find-file`, and the built-in run is the
interactive `find-file`. -/
theorem execute_extended_command_runs_interactive_witness :
    (execute_extended_command sample_editor sample_table 5 false false 1
        [some "find-"] (sample_world [("my-macro", ⟨1⟩)])).world.trace =
      [Effect.term_minibuf_read "M-x " "" (-1) 1 5 (some "find-"),
       Effect.completion_try 1 "find-",
       Effect.minibuf_test_in_completions "find-file" 1,
       Effect.add_history_element 5 "find-file",
       Effect.term_minibuf_write "",
       Effect.func ⟨8⟩ 1 (le.ref LUA_REFNIL)] ∧
    "find-file" ∈ ((function_name_completion sample_table
        (sample_world [("my-macro", ⟨1⟩)])).2.st.cps
      (function_name_completion sample_table (sample_world [("my-macro", ⟨1⟩)])).1).completions :=
  ⟨by decide,
   (execute_extended_command_runs_interactive sample_editor sample_table 5 false false 1
      [some "find-"] [] (sample_world [("my-macro", ⟨1⟩)])
      (minibuf_read_function_name sample_editor sample_table 5
        (extended_command_prompt false false 1) [some "find-"]
        (sample_world [("my-macro", ⟨1⟩)])).world "find-file"
      (by decide) (by decide) rfl).1⟩

/-! ## The negated count: claim C21 -/

theorem wrap_int_spec (x : Int) :
    INT_MIN ≤ wrap_int x ∧ wrap_int x ≤ INT_MAX ∧ (wrap_int x - x) % 4294967296 = 0 := by
  unfold wrap_int INT_MIN INT_MAX
  omega

/-- For a count `n` with `INT_MIN < n < 0` and a backward action supplied, the
count that the loop of `execute_with_uniarg` uses is `-n`: it is strictly
positive and is the absolute value of `n`. -/
theorem choose_func_count_in_range {σ : Type} (n : Int) (hmin : INT_MIN < n) (hneg : n < 0)
    (forward backward : Action σ) :
    (choose_func n forward (some backward)).2.2 = -n ∧
    0 < (choose_func n forward (some backward)).2.2 ∧
    (choose_func n forward (some backward)).2.2 = (n.natAbs : Int) := by
  have h : (choose_func n forward (some backward)).2.2 = -n := by
    simp [choose_func, hneg, wrap_int_neg_in_range n hmin hneg]
  rw [h]
  refine ⟨rfl, by omega, by omega⟩

/-- C21, at the count `INT_MIN` with a backward action supplied: the negation
modulo 2^32 gives `INT_MIN` again, so the count that the loop uses is
`INT_MIN`, which is not strictly positive and is not the absolute value
2147483648 of the original count. -/
theorem choose_func_count_int_min {σ : Type} (forward backward : Action σ) :
    wrap_int (-INT_MIN) = INT_MIN ∧
    (choose_func INT_MIN forward (some backward)).2.2 = INT_MIN ∧
    ¬ 0 < (choose_func INT_MIN forward (some backward)).2.2 ∧
    (choose_func INT_MIN forward (some backward)).2.2 ≠ (INT_MIN.natAbs : Int) := by
  have h : (choose_func INT_MIN forward (some backward)).2.2 = INT_MIN := by
    simp [choose_func, INT_MIN, wrap_int]
  rw [h]
  refine ⟨by decide, rfl, by decide, by decide⟩

/-! ## Reverse lookup in the function table: claim C22 -/

theorem get_function_name_eq_none_iff (tbl : List fentry) (p : Function) :
    get_function_name tbl p = none ↔ ∀ e ∈ tbl, e.func ≠ p := by
  induction tbl with
  | nil => simp [get_function_name]
  | cons e rest ih =>
    by_cases h : e.func = p
    · simp [get_function_name, h]
    · simp [get_function_name, h, ih]

theorem get_function_name_skip (pre l : List fentry) (p : Function)
    (h : ∀ e ∈ pre, e.func ≠ p) :
    get_function_name (pre ++ l) p = get_function_name l p := by
  induction pre with
  | nil => rfl
  | cons x pre ih =>
    have hx : x.func ≠ p := h x (List.mem_cons_self x pre)
    simp only [List.cons_append, get_function_name, if_neg hx]
    exact ih (fun e he => h e (List.mem_cons_of_mem x he))

theorem get_function_name_first (pre l : List fentry) (p : Function)
    (h : ∃ e ∈ pre, e.func = p) :
    ∃ e ∈ pre, e.func = p ∧ get_function_name (pre ++ l) p = some e.name := by
  induction pre with
  | nil =>
    obtain ⟨e, he, _⟩ := h
    cases he
  | cons x pre ih =>
    by_cases hx : x.func = p
    · exact ⟨x, List.mem_cons_self x pre, hx, by simp [get_function_name, hx]⟩
    · obtain ⟨e, he, hp⟩ := h
      have he2 : e ∈ pre := by
        rcases List.mem_cons.mp he with h1 | h1
        · exact absurd (h1 ▸ hp) hx
        · exact h1
      obtain ⟨e1, he1, hp1, hget⟩ := ih ⟨e, he2, hp⟩
      exact ⟨e1, List.mem_cons_of_mem x he1, hp1, by
        simpa [get_function_name, hx] using hget⟩

/-- C22: with unique names in the table, for every function `p` stored in some
entry `get_function_name (p)` is a name `n` (not `NULL`) with
`get_function (n) = p`; `get_function_name (p)` is `NULL` exactly when no entry
stores `p`; and for an entry `e` of the table,
`get_function_name (get_function (e.name))` is `e.name` exactly when no entry
before `e` stores the same function. -/
theorem get_function_name_right_inverse (tbl : List fentry)
    (hnodup : (tbl.map fentry.name).Nodup) :
    (∀ e ∈ tbl, ∃ n, get_function_name tbl e.func = some n ∧
      get_function tbl n = some e.func) ∧
    (∀ p, get_function_name tbl p = none ↔ ∀ e ∈ tbl, e.func ≠ p) ∧
    (∀ pre e post, tbl = pre ++ e :: post →
      ((get_function tbl e.name).bind (get_function_name tbl) = some e.name ↔
        ∀ e1 ∈ pre, e1.func ≠ e.func)) := by
  refine ⟨?_, get_function_name_eq_none_iff tbl, ?_⟩
  · intro e he
    obtain ⟨e1, he1, hp1, hget⟩ := get_function_name_first tbl [] e.func ⟨e, he, rfl⟩
    rw [List.append_nil] at hget
    refine ⟨e1.name, hget, ?_⟩
    simp [get_function, get_fentry_of_mem tbl hnodup e1 he1, hp1]
  · intro pre e post htbl
    have he : e ∈ tbl := by rw [htbl]; simp
    have hlook : get_function tbl e.name = some e.func := by
      simp [get_function, get_fentry_of_mem tbl hnodup e he]
    rw [hlook, Option.some_bind]
    constructor
    · intro hname e1 he1 hfunc
      obtain ⟨e2, he2, -, hget⟩ := get_function_name_first pre (e :: post) e.func
        ⟨e1, he1, hfunc⟩
      rw [← htbl, hname] at hget
      have hsame : e2.name = e.name := (Option.some.inj hget).symm
      rw [htbl, List.map_append, List.map_cons, List.nodup_append] at hnodup
      exact hnodup.2.2 (List.mem_map_of_mem fentry.name he2)
        (by rw [hsame]; exact List.mem_cons_self _ _)
    · intro hfirst
      rw [htbl, get_function_name_skip pre (e :: post) e.func hfirst]
      simp [get_function_name]

/-- C22, on a table in which `right-char` is a second name of the function of
`forward-char`: the reverse lookup of that function gives `forward-char`, whose
lookup gives the function back, and the converse fails at `right-char`. -/
theorem get_function_name_right_inverse_witness :
    (∃ n, get_function_name
        [⟨"forward-char", ⟨7⟩, true, "Move point right."⟩,
         ⟨"right-char", ⟨7⟩, true, "Move point right."⟩,
         ⟨"setq", ⟨9⟩, false, "Set each sym to the value of its val."⟩]
        ⟨7⟩ = some n ∧
      get_function
        [⟨"forward-char", ⟨7⟩, true, "Move point right."⟩,
         ⟨"right-char", ⟨7⟩, true, "Move point right."⟩,
         ⟨"setq", ⟨9⟩, false, "Set each sym to the value of its val."⟩]
        n = some ⟨7⟩) ∧
    (get_function
        [⟨"forward-char", ⟨7⟩, true, "Move point right."⟩,
         ⟨"right-char", ⟨7⟩, true, "Move point right."⟩,
         ⟨"setq", ⟨9⟩, false, "Set each sym to the value of its val."⟩]
        "right-char").bind
      (get_function_name
        [⟨"forward-char", ⟨7⟩, true, "Move point right."⟩,
         ⟨"right-char", ⟨7⟩, true, "Move point right."⟩,
         ⟨"setq", ⟨9⟩, false, "Set each sym to the value of its val."⟩])
      = some "forward-char" :=
  ⟨(get_function_name_right_inverse
      [⟨"forward-char", ⟨7⟩, true, "Move point right."⟩,
       ⟨"right-char", ⟨7⟩, true, "Move point right."⟩,
       ⟨"setq", ⟨9⟩, false, "Set each sym to the value of its val."⟩]
      (by decide)).1 ⟨"right-char", ⟨7⟩, true, "Move point right."⟩ (by decide),
   by decide⟩

/-! ## Reading a number: claim C23 -/

theorem minibuf_read_number_cancel {σ : Type} (M : MinibufExt σ) (C : CLib) (fmt : String)
    (input : List (Option String)) (w : World σ) :
    minibuf_read_number M C fmt (none :: input) w =
      NumberResult.returned C.SIZE_MAX input
        (extern_call M Effect.keyboard_quit (minibuf_read M fmt (some "") none w)) := by
  simp [minibuf_read_number]

theorem minibuf_read_number_some {σ : Type} (M : MinibufExt σ) (C : CLib) (fmt : String)
    (ms : String) (input : List (Option String)) (w : World σ) :
    minibuf_read_number M C fmt (some ms :: input) w =
      if (if strlen ms = 0 then C.ULONG_MAX - 1 else C.strtoul ms) = C.ULONG_MAX then
        minibuf_read_number M C fmt input
          (minibuf_write M "Please enter a number." []
            (minibuf_read M fmt (some "") (some ms) w))
      else
        NumberResult.returned (if strlen ms = 0 then C.ULONG_MAX - 1 else C.strtoul ms) input
          (minibuf_read M fmt (some "") (some ms) w) := by
  simp only [minibuf_read_number]

theorem minibuf_read_number_empty {σ : Type} (M : MinibufExt σ) (C : CLib) (fmt : String)
    (hpos : 0 < C.ULONG_MAX) (input : List (Option String)) (w : World σ) :
    minibuf_read_number M C fmt (some "" :: input) w =
      NumberResult.returned (C.ULONG_MAX - 1) input
        (minibuf_read M fmt (some "") (some "") w) := by
  have h : C.ULONG_MAX - 1 ≠ C.ULONG_MAX := by omega
  have hlen : strlen "" = 0 := rfl
  rw [minibuf_read_number_some, if_pos hlen, if_neg h]

theorem minibuf_read_number_text {σ : Type} (M : MinibufExt σ) (C : CLib) (fmt : String)
    (ms : String) (hne : ms ≠ "") (input : List (Option String)) (w : World σ) :
    minibuf_read_number M C fmt (some ms :: input) w =
      if C.strtoul ms = C.ULONG_MAX then
        minibuf_read_number M C fmt input
          (minibuf_write M "Please enter a number." []
            (minibuf_read M fmt (some "") (some ms) w))
      else
        NumberResult.returned (C.strtoul ms) input
          (minibuf_read M fmt (some "") (some ms) w) := by
  have hlen : strlen ms ≠ 0 := by
    intro h0
    apply hne
    have h1 : ms.data.length = 0 := h0
    exact String.ext (List.length_eq_zero.mp h1)
  rw [minibuf_read_number_some, if_neg hlen]

theorem minibuf_read_number_trace {σ : Type} (M : MinibufExt σ) (C : CLib) (fmt : String) :
    ∀ (input : List (Option String)) (w : World σ),
      ∃ new, (minibuf_read_number M C fmt input w).world.trace = w.trace ++ new := by
  intro input
  induction input with
  | nil => intro w; exact ⟨[], by simp [minibuf_read_number, NumberResult.world]⟩
  | cons r input ih =>
    intro w
    cases r with
    | none =>
      exact ⟨[Effect.term_minibuf_read fmt "" (-1) LUA_REFNIL LUA_REFNIL none,
        Effect.keyboard_quit], by
        simp [minibuf_read_number, NumberResult.world, minibuf_read, extern_call]⟩
    | some ms =>
      rw [minibuf_read_number_some]
      by_cases hn : (if strlen ms = 0 then C.ULONG_MAX - 1 else C.strtoul ms) = C.ULONG_MAX
      · rw [if_pos hn]
        obtain ⟨new, hnew⟩ := ih (minibuf_write M "Please enter a number." []
          (minibuf_read M fmt (some "") (some ms) w))
        exact ⟨[Effect.term_minibuf_read fmt "" (-1) LUA_REFNIL LUA_REFNIL (some ms),
          Effect.minibuf_vwrite "Please enter a number." []] ++ new, by
          rw [hnew]
          simp [minibuf_write, minibuf_vwrite, minibuf_read, extern_call]⟩
      · rw [if_neg hn]
        exact ⟨[Effect.term_minibuf_read fmt "" (-1) LUA_REFNIL LUA_REFNIL (some ms)], by
          simp [NumberResult.world, minibuf_read, extern_call]⟩

theorem minibuf_read_number_next_read {σ : Type} (M : MinibufExt σ) (C : CLib) (fmt : String)
    (r : Option String) (rest : List (Option String)) (w : World σ) :
    ∃ tail, (minibuf_read_number M C fmt (r :: rest) w).world.trace
      = w.trace ++ Effect.term_minibuf_read fmt "" (-1) LUA_REFNIL LUA_REFNIL r :: tail := by
  cases r with
  | none =>
    exact ⟨[Effect.keyboard_quit], by
      simp [minibuf_read_number, NumberResult.world, minibuf_read, extern_call]⟩
  | some ms =>
    rw [minibuf_read_number_some]
    by_cases hn : (if strlen ms = 0 then C.ULONG_MAX - 1 else C.strtoul ms) = C.ULONG_MAX
    · rw [if_pos hn]
      obtain ⟨new, hnew⟩ := minibuf_read_number_trace M C fmt rest
        (minibuf_write M "Please enter a number." []
          (minibuf_read M fmt (some "") (some ms) w))
      exact ⟨Effect.minibuf_vwrite "Please enter a number." [] :: new, by
        rw [hnew]
        simp [minibuf_write, minibuf_vwrite, minibuf_read, extern_call]⟩
    · rw [if_neg hn]
      exact ⟨[], by simp [NumberResult.world, minibuf_read, extern_call]⟩

theorem minibuf_read_number_last {σ : Type} (M : MinibufExt σ) (C : CLib) (fmt : String) :
    ∀ (input : List (Option String)) (w : World σ) (n : Nat) (rest : List (Option String))
      (w' : World σ),
      minibuf_read_number M C fmt input w = NumberResult.returned n rest w' →
      ∃ pre last, input = pre ++ last :: rest ∧
        (last = none → n = C.SIZE_MAX) ∧
        (∀ ms, last = some ms → n ≠ C.ULONG_MAX) := by
  intro input
  induction input with
  | nil =>
    intro w n rest w' h
    simp [minibuf_read_number] at h
  | cons r input ih =>
    intro w n rest w' h
    cases r with
    | none =>
      rw [minibuf_read_number_cancel] at h
      simp only [NumberResult.returned.injEq] at h
      obtain ⟨rfl, rfl, -⟩ := h
      exact ⟨[], none, rfl, fun _ => rfl, fun ms hms => by cases hms⟩
    | some ms =>
      rw [minibuf_read_number_some] at h
      by_cases hn : (if strlen ms = 0 then C.ULONG_MAX - 1 else C.strtoul ms) = C.ULONG_MAX
      · rw [if_pos hn] at h
        obtain ⟨pre, last, hin, h1, h2⟩ := ih _ n rest w' h
        exact ⟨some ms :: pre, last, by rw [hin]; rfl, h1, h2⟩
      · rw [if_neg hn] at h
        simp only [NumberResult.returned.injEq] at h
        obtain ⟨rfl, rfl, -⟩ := h
        exact ⟨[], some ms, rfl, (fun hl => by cases hl), fun _ _ => hn⟩

/-- C23: on a platform where `SIZE_MAX = ULONG_MAX`, `minibuf_read_number`
returns `ULONG_MAX` exactly when the last read it made was cancelled; a
cancelled read is followed by one `keyboard_quit` and the return, with nothing
more read; a submission that `strtoul` converts to `ULONG_MAX` is answered with
`Please enter a number.` and the loop reads again; an empty submission ends the
loop with `ULONG_MAX - 1`, whatever `strtoul` would make of the text. -/
theorem minibuf_read_number_spec {σ : Type} (M : MinibufExt σ) (C : CLib) (fmt : String)
    (hsize : C.SIZE_MAX = C.ULONG_MAX) (hpos : 0 < C.ULONG_MAX) :
    (∀ input w n rest w',
      minibuf_read_number M C fmt input w = NumberResult.returned n rest w' →
      (n = C.ULONG_MAX ↔ ∃ pre, input = pre ++ none :: rest)) ∧
    (∀ input w, ∃ w' : World σ,
      minibuf_read_number M C fmt (none :: input) w
        = NumberResult.returned C.ULONG_MAX input w' ∧
      w'.trace = w.trace ++
        [Effect.term_minibuf_read fmt "" (-1) LUA_REFNIL LUA_REFNIL none,
         Effect.keyboard_quit]) ∧
    (∀ ms input w, ms ≠ "" → C.strtoul ms = C.ULONG_MAX → ∃ w' : World σ,
      minibuf_read_number M C fmt (some ms :: input) w
        = minibuf_read_number M C fmt input w' ∧
      w'.trace = w.trace ++
        [Effect.term_minibuf_read fmt "" (-1) LUA_REFNIL LUA_REFNIL (some ms),
         Effect.minibuf_vwrite "Please enter a number." []] ∧
      ∀ r rest, input = r :: rest → ∃ tail,
        (minibuf_read_number M C fmt input w').world.trace
          = w'.trace ++ Effect.term_minibuf_read fmt "" (-1) LUA_REFNIL LUA_REFNIL r :: tail) ∧
    (∀ input w, ∃ w' : World σ,
      minibuf_read_number M C fmt (some "" :: input) w
        = NumberResult.returned (C.ULONG_MAX - 1) input w' ∧
      w'.trace = w.trace ++
        [Effect.term_minibuf_read fmt "" (-1) LUA_REFNIL LUA_REFNIL (some "")] ∧
      C.ULONG_MAX - 1 ≠ C.ULONG_MAX) := by
  refine ⟨?_, ?_, ?_, ?_⟩
  · intro input w n rest w' h
    obtain ⟨pre, last, hin, h1, h2⟩ := minibuf_read_number_last M C fmt input w n rest w' h
    constructor
    · intro hn
      cases last with
      | none => exact ⟨pre, hin⟩
      | some ms => exact absurd hn (h2 ms rfl)
    · rintro ⟨pre2, hin2⟩
      have heq : pre ++ [last] = pre2 ++ [none] := by
        have h3 : (pre ++ [last]) ++ rest = (pre2 ++ [none]) ++ rest := by
          simpa using hin.symm.trans hin2
        exact List.append_cancel_right h3
      have hlast : last = none := by
        have := congrArg List.getLast? heq
        simpa using this
      rw [h1 hlast, hsize]
  · intro input w
    refine ⟨extern_call M Effect.keyboard_quit (minibuf_read M fmt (some "") none w), ?_, ?_⟩
    · rw [minibuf_read_number_cancel, hsize]
    · simp [minibuf_read, extern_call]
  · intro ms input w hne hconv
    refine ⟨minibuf_write M "Please enter a number." []
      (minibuf_read M fmt (some "") (some ms) w), ?_, ?_, ?_⟩
    · rw [minibuf_read_number_text M C fmt ms hne, if_pos hconv]
    · simp [minibuf_write, minibuf_vwrite, minibuf_read, extern_call]
    · intro r rest hin
      subst hin
      exact minibuf_read_number_next_read M C fmt r rest _
  · intro input w
    exact ⟨_, minibuf_read_number_empty M C fmt hpos input w,
      by simp [minibuf_read, extern_call], by omega⟩

/-- C23, on a 64-bit platform: a text too large for an `unsigned long` is
answered with the message, and the empty submission that follows ends the call
with `ULONG_MAX - 1`. -/
theorem minibuf_read_number_spec_witness :
    sample_clib.SIZE_MAX = sample_clib.ULONG_MAX ∧ 0 < sample_clib.ULONG_MAX ∧
    ∃ w' : World Unit,
      minibuf_read_number sample_minibuf sample_clib "Goto line: "
          (some "99999999999999999999" :: [some ""]) ⟨(), []⟩
        = minibuf_read_number sample_minibuf sample_clib "Goto line: " [some ""] w' ∧
      w'.trace = [] ++
        [Effect.term_minibuf_read "Goto line: " "" (-1) LUA_REFNIL LUA_REFNIL
           (some "99999999999999999999"),
         Effect.minibuf_vwrite "Please enter a number." []] := by
  obtain ⟨w', h1, h2, -⟩ := (minibuf_read_number_spec sample_minibuf sample_clib "Goto line: "
    rfl (by decide)).2.2.1 "99999999999999999999" [some ""] ⟨(), []⟩ (by decide) (by decide)
  exact ⟨rfl, by decide, w', h1, h2⟩

/-! ## The value returned on a cancelled function-name read: claim C18 -/

/-- C18, at a cancelled function-name read: `execute-extended-command` adds to
the trace the read and one `keyboard_quit`, nothing else (no built-in is
called, no macro is played), and returns the C value `false`, the value 0 of
the type `le`. That value is not `leT`, and it is not `leNIL` either, the
value by which `bool_to_lisp` and `execute_function` report failure. -/
theorem execute_extended_command_cancelled_returns_false {τ : Type} (E : EditorExt τ)
    (tbl : List fentry) (fh : Int) (flag_set_uniarg flag_uniarg_empty : Bool) (uniarg : Int)
    (rest : List (Option String)) (w : World (Editor τ)) :
    (∃ w1 : World (Editor τ),
      execute_extended_command E tbl fh flag_set_uniarg flag_uniarg_empty uniarg
          (none :: rest) w
        = CommandResult.returned (le.ref 0) rest w1 ∧
      w1.trace = w.trace ++
        [Effect.term_minibuf_read
           (extended_command_prompt flag_set_uniarg flag_uniarg_empty uniarg) "" (-1)
           w.st.next_ref fh none,
         Effect.keyboard_quit]) ∧
    le.ref 0 ≠ leNIL ∧ le.ref 0 ≠ leT ∧ bool_to_lisp 0 = leNIL := by
  refine ⟨?_, by decide, by decide, by decide⟩
  have hread : minibuf_read_function_name E tbl fh
      (extended_command_prompt flag_set_uniarg flag_uniarg_empty uniarg) (none :: rest) w
      = ReadResult.returned none rest
          (free_completion (function_name_completion tbl w).1
            (extern_call (editor_minibuf E) Effect.keyboard_quit
              (extern_call (editor_minibuf E)
                (Effect.term_minibuf_read
                  (extended_command_prompt flag_set_uniarg flag_uniarg_empty uniarg) "" (-1)
                  (function_name_completion tbl w).1 fh none)
                (function_name_completion tbl w).2))) := by
    simp [minibuf_read_function_name, minibuf_vread_completion,
      minibuf_vread_completion_body]
  have htr := (function_name_completion_spec tbl w).2.2
  have hcp : (function_name_completion tbl w).1 = w.st.next_ref := rfl
  refine ⟨free_completion (function_name_completion tbl w).1
    (extern_call (editor_minibuf E) Effect.keyboard_quit
      (extern_call (editor_minibuf E)
        (Effect.term_minibuf_read
          (extended_command_prompt flag_set_uniarg flag_uniarg_empty uniarg) "" (-1)
          (function_name_completion tbl w).1 fh none)
        (function_name_completion tbl w).2)), ?_, ?_⟩
  · simp only [execute_extended_command, hread]
  · simp [free_completion, extern_call, htr, hcp]

end Zile
